import Mathlib

/-!
# Verification of the options-math volatility index library

Shallow embedding of `src/lib.rs` (crate `options_math`), a VIX-style
volatility index computation over option quotes, together with proofs of the
specification claims.

Modelling conventions:
* Rust `i64` (`Cents`) is embedded as `Int`; Rust's `/` on `i64` truncates
  toward zero, which is `Int.tdiv` (Lean's `/` on `Int` is Euclidean and does
  not match).
* `chrono::NaiveDateTime` is embedded as an `Int` count of minutes (`Time`);
  `Duration::num_minutes` of a difference of such timestamps is exactly their
  difference, matching the code's whole-minute usage.
* Rust `f64` arithmetic is embedded as exact real arithmetic over `ℝ`.  Real
  division in Lean is total with `x / 0 = 0`; where a claim is about IEEE-754
  special values (infinities / NaN produced by division by zero), a separate
  model `EF` of extended floating-point values with exact finite arithmetic
  and IEEE special-value propagation is used.
* `std::collections::HashMap` is embedded as an association list with
  insert-overwrite semantics (`insertA` / `lookupA`); the code never iterates
  over a map, so hash order is irrelevant.
* `itertools::group_by` groups *consecutive* runs of equal keys; it is
  embedded as `groupRunsBy`.
* Rust `sort_unstable_by_key` produces a sorted permutation; it is embedded
  as `List.insertionSort` with the corresponding key relation (all downstream
  claims are insensitive to how ties are ordered).
-/

/-- Truncating division toward zero: the semantics of Rust's `/` on `i64`. -/
def rustDiv (a b : Int) : Int := Int.tdiv a b

/-- `type Cents = i64`. -/
abbrev Cents := Int

/-- Timestamps (`chrono::NaiveDateTime`), in whole minutes. -/
abbrev Time := Int

/-- `enum OptionKind { Call, Put }`. -/
inductive OptionKind where
  | Call : OptionKind
  | Put : OptionKind
deriving DecidableEq, Repr

/-- `struct OptionContract` from `src/lib.rs`. -/
structure OptionContract where
  expires_at : Time
  strike : Cents
  kind : OptionKind
  bid : Cents
  ask : Cents
deriving DecidableEq, Repr

/-- `OptionContract::mark`: `(self.ask + self.bid) / 2` in `i64` arithmetic. -/
def OptionContract.mark (c : OptionContract) : Cents :=
  rustDiv (c.ask + c.bid) 2

/-- `struct OptionStrike` from `src/lib.rs`. -/
structure OptionStrike where
  price : Cents
  put : OptionContract
  call : OptionContract
  delta_k : Cents
deriving DecidableEq, Repr

/-- `OptionStrike::call_put_difference`. -/
def OptionStrike.call_put_difference (s : OptionStrike) : Cents :=
  s.call.mark - s.put.mark

/-- `OptionStrike::mark`. -/
def OptionStrike.markMid (s : OptionStrike) : Cents :=
  rustDiv (s.call.mark + s.put.mark) 2

/-! ## Association lists modelling `HashMap` (insert overwrites, lookup) -/

/-- `HashMap::insert`: replace the binding of `k` if present, else append. -/
def insertA {K V : Type} [DecidableEq K] : List (K × V) → K → V → List (K × V)
  | [], k, v => [(k, v)]
  | (k', v') :: rest, k, v =>
      if k' = k then (k, v) :: rest else (k', v') :: insertA rest k v

/-- `HashMap::get`: the first (hence, for maps built by `insertA`, the only)
binding of `k`. -/
def lookupA {K V : Type} [DecidableEq K] : List (K × V) → K → Option V
  | [], _ => none
  | (k', v') :: rest, k => if k' = k then some v' else lookupA rest k

/-! ## `itertools::group_by`: runs of consecutive elements with equal keys -/

/-- Group consecutive elements sharing a key, preserving order: the model of
`itertools::Itertools::group_by`. -/
def groupRunsBy {α K : Type} [DecidableEq K] (key : α → K) : List α → List (K × List α)
  | [] => []
  | a :: rest =>
      match groupRunsBy key rest with
      | [] => [(key a, [a])]
      | (k, run) :: gs =>
          if key a = k then (k, a :: run) :: gs
          else (key a, [a]) :: (k, run) :: gs

/-! ## `slice::windows(3)` -/

/-- All windows of three consecutive elements, in order: the model of
`options_by_strike.windows(3)`. -/
def windows3 {α : Type} : List α → List (α × α × α)
  | a :: b :: c :: rest => (a, b, c) :: windows3 (b :: c :: rest)
  | _ => []

/-! ## Sorting relations used by `sort_unstable_by_key` calls -/

/-- Key order for `all_options.sort_unstable_by_key(|o| o.strike)`. -/
def byStrike (a b : OptionContract) : Prop := a.strike ≤ b.strike

instance : DecidableRel byStrike := fun a b =>
  inferInstanceAs (Decidable (a.strike ≤ b.strike))

instance : IsTotal OptionContract byStrike := ⟨fun a b => le_total a.strike b.strike⟩

instance : IsTrans OptionContract byStrike := ⟨fun _ _ _ h h' => le_trans h h'⟩

/-- Key order for `options_by_strike.sort_unstable_by_key(|s| s.price)`. -/
def byPrice (a b : OptionStrike) : Prop := a.price ≤ b.price

instance : DecidableRel byPrice := fun a b =>
  inferInstanceAs (Decidable (a.price ≤ b.price))

instance : IsTotal OptionStrike byPrice := ⟨fun a b => le_total a.price b.price⟩

instance : IsTrans OptionStrike byPrice := ⟨fun _ _ _ h h' => le_trans h h'⟩

/-- Key order for `below_and_k.sort_unstable_by_key(|k| -k.price)` (descending
by price). -/
def byPriceDesc (a b : OptionStrike) : Prop := b.price ≤ a.price

instance : DecidableRel byPriceDesc := fun a b =>
  inferInstanceAs (Decidable (b.price ≤ a.price))

instance : IsTotal OptionStrike byPriceDesc := ⟨fun a b => le_total b.price a.price⟩

instance : IsTrans OptionStrike byPriceDesc := ⟨fun _ _ _ h h' => le_trans h' h⟩

/-- Key order for `strikes.sort_unstable_by_key(|k| k.call_put_difference().abs())`. -/
def byAbsCpd (a b : OptionStrike) : Prop :=
  a.call_put_difference.natAbs ≤ b.call_put_difference.natAbs

instance : DecidableRel byAbsCpd := fun a b =>
  inferInstanceAs (Decidable (a.call_put_difference.natAbs ≤ b.call_put_difference.natAbs))

instance : IsTotal OptionStrike byAbsCpd :=
  ⟨fun a b => le_total a.call_put_difference.natAbs b.call_put_difference.natAbs⟩

instance : IsTrans OptionStrike byAbsCpd := ⟨fun _ _ _ h h' => le_trans h h'⟩

/-! ## `OptionsByExpiryDate` and `get_strikes` -/

/-- `struct OptionsByExpiryDate` from `src/lib.rs`. -/
structure OptionsByExpiryDate where
  expires_at : Time
  risk_free_rate : ℝ
  calls : List OptionContract
  puts : List OptionContract

namespace OptionsByExpiryDate

/-- The concatenated calls and puts surviving the zero-bid liquidity filter
(first step of `get_strikes`). -/
def liquidOptions (g : OptionsByExpiryDate) : List OptionContract :=
  (g.calls ++ g.puts).filter (fun o => decide (o.bid ≠ 0))

/-- The liquid options sorted by strike (`sort_unstable_by_key(|o| o.strike)`). -/
def sortedOptions (g : OptionsByExpiryDate) : List OptionContract :=
  List.insertionSort byStrike g.liquidOptions

/-- The consecutive runs of equal strikes (`group_by(|o| o.strike)`). -/
def strikeRuns (g : OptionsByExpiryDate) : List (Cents × List OptionContract) :=
  groupRunsBy (fun o => o.strike) g.sortedOptions

/-- The body of the `flat_map` in `get_strikes`: pair the first call and first
put of a strike run, dropping the strike if either is missing. -/
def pairStrike (r : Cents × List OptionContract) : Option OptionStrike :=
  match r.2.find? (fun o => o.kind = OptionKind.Call),
        r.2.find? (fun o => o.kind = OptionKind.Put) with
  | some c, some p => some ⟨r.1, p, c, 0⟩
  | _, _ => none

/-- `options_by_strike` before the `delta_k` pass, sorted by price. -/
def sortedStrikes (g : OptionsByExpiryDate) : List OptionStrike :=
  List.insertionSort byPrice (g.strikeRuns.filterMap pairStrike)

/-- The `delta_ks` map built from `windows(3)`:
`delta_ks.insert(curr.price, (next.price - prev.price) / 2)`. -/
def deltaMap (g : OptionsByExpiryDate) : List (Cents × Cents) :=
  (windows3 g.sortedStrikes).foldl
    (fun m w => insertA m w.2.1.price (rustDiv (w.2.2.price - w.1.price) 2)) []

/-- `OptionsByExpiryDate::get_strikes`. -/
def get_strikes (g : OptionsByExpiryDate) : List OptionStrike :=
  g.sortedStrikes.map
    (fun s => { s with delta_k := (lookupA g.deltaMap s.price).getD 0 })

/-- `minutes_to_expiration`: `(expires_at - now)` in minutes, as `f64`. -/
noncomputable def minutes_to_expiration (g : OptionsByExpiryDate) (now : Time) : ℝ :=
  ((g.expires_at - now : Int) : ℝ)

/-- `time_to_expiration`: fraction of a 365-day year. -/
noncomputable def time_to_expiration (g : OptionsByExpiryDate) (now : Time) : ℝ :=
  g.minutes_to_expiration now / 525600

end OptionsByExpiryDate

namespace OptionsByExpiryDate

/-- Truncation toward zero of an `f64` cast to `i64` (`as Cents` in
`forward_price`); exact for the magnitudes at hand, so saturation is elided. -/
noncomputable def f64_as_cents (x : ℝ) : Cents :=
  if 0 ≤ x then ⌊x⌋ else ⌈x⌉

/-- `OptionsByExpiryDate::forward_price`. -/
noncomputable def forward_price (g : OptionsByExpiryDate) (now : Time) : Cents :=
  let interest := Real.exp (g.risk_free_rate * g.time_to_expiration now)
  match (List.insertionSort byAbsCpd g.get_strikes).head? with
  | some strike =>
      strike.price + f64_as_cents (interest * (strike.call_put_difference : ℝ))
  | none => 0

/-- `exp(risk_free_rate * t)` inside `variance`. -/
noncomputable def riskFreeInterest (g : OptionsByExpiryDate) (now : Time) : ℝ :=
  Real.exp (g.risk_free_rate * g.time_to_expiration now)

/-- `below_and_k` in `variance`: the strikes strictly below the forward price,
sorted descending by price. -/
noncomputable def belowAndK (g : OptionsByExpiryDate) (now : Time) : List OptionStrike :=
  List.insertionSort byPriceDesc
    ((g.get_strikes.partition (fun x => decide (x.price < g.forward_price now))).1)

/-- `above` in `variance`: the strikes at or above the forward price. -/
noncomputable def aboveStrikes (g : OptionsByExpiryDate) (now : Time) : List OptionStrike :=
  (g.get_strikes.partition (fun x => decide (x.price < g.forward_price now))).2

/-- `k` in `variance`: the highest strike below the forward price, if any. -/
noncomputable def kStrike (g : OptionsByExpiryDate) (now : Time) : Option OptionStrike :=
  (g.belowAndK now).head?

/-- `k_0` in `variance`: `k.price`, or `0` when there is no strike below the
forward price. -/
noncomputable def k_0 (g : OptionsByExpiryDate) (now : Time) : Cents :=
  ((g.kStrike now).map (fun s => s.price)).getD 0

/-- `selected_options` in `variance`: out-of-the-money puts (with their
`delta_k`), then out-of-the-money calls, then both legs of `k`. -/
noncomputable def selectedOptions (g : OptionsByExpiryDate) (now : Time) :
    List (OptionContract × Cents) :=
  (g.belowAndK now).tail.map (fun s => (s.put, s.delta_k))
    ++ (g.aboveStrikes now).map (fun s => (s.call, s.delta_k))
    ++ (g.kStrike now).toList.flatMap (fun s => [(s.call, s.delta_k), (s.put, s.delta_k)])

/-- One summand of `contributions` in `variance`: prices converted from cents
to dollars (`/ 100.0`) before use. -/
noncomputable def contribution (r : ℝ) (p : OptionContract × Cents) : ℝ :=
  ((p.2 : ℝ) / 100) / (((p.1.strike : ℝ) / 100) * ((p.1.strike : ℝ) / 100))
    * ((p.1.mark : ℝ) / 100) * r

/-- `contributions` in `variance`. -/
noncomputable def contributions (g : OptionsByExpiryDate) (now : Time) : ℝ :=
  ((g.selectedOptions now).map (contribution (g.riskFreeInterest now))).sum

/-- `a` in `variance`: `fp as f64 / k_0 as f64 - 1.0`, with no guard against
`k_0 = 0` (real division in the embedding is total with `x / 0 = 0`; the IEEE
behaviour of this division at `k_0 = 0` is captured by `EF.div`). -/
noncomputable def aTerm (g : OptionsByExpiryDate) (now : Time) : ℝ :=
  (g.forward_price now : ℝ) / (g.k_0 now : ℝ) - 1

/-- `OptionsByExpiryDate::variance`. -/
noncomputable def variance (g : OptionsByExpiryDate) (now : Time) : ℝ :=
  (2 * g.contributions now - g.aTerm now * g.aTerm now) / g.time_to_expiration now

end OptionsByExpiryDate

/-- `group_options_by_expiry`: consecutive runs of equal `expires_at` are
turned into groups (partitioned into calls and the rest) and inserted into a
map, later runs overwriting earlier ones with the same key. -/
noncomputable def group_options_by_expiry (options : List OptionContract) :
    List (Time × OptionsByExpiryDate) :=
  (groupRunsBy (fun o => o.expires_at) options).foldl
    (fun m r =>
      let part := r.2.partition (fun o => decide (o.kind = OptionKind.Call))
      insertA m r.1 ⟨r.1, 0.003, part.1, part.2⟩) []

/-- `compute_vix`. -/
noncomputable def compute_vix (near_term next_term : OptionsByExpiryDate) (now : Time) : ℝ :=
  let t1 := near_term.time_to_expiration now
  let n_t1 := near_term.minutes_to_expiration now
  let s1_sq := near_term.variance now
  let t2 := next_term.time_to_expiration now
  let n_t2 := next_term.minutes_to_expiration now
  let s2_sq := next_term.variance now
  let n_30 : ℝ := 30 * 24 * 60
  let n_365 : ℝ := 365 * 24 * 60
  ((t1 * s1_sq * (n_t2 - n_30) / (n_t2 - n_t1)
      + t2 * s2_sq * (n_30 - n_t1) / (n_t2 - n_t1))
      * n_365 / n_30) ^ ((1 : ℝ) / 2) * 100

/-! ## `EF`: IEEE-754 special values over an exact carrier

`EF K` models an `f64` as either an exact finite value of the linear ordered
field `K`, `+∞`, `-∞`, or NaN.  Finite arithmetic is exact (rounding is not
modelled); special values propagate as in IEEE 754 (with the single zero of
`K` playing the role of `+0.0`, matching how the zeros arise in this code).
This model is used for the claims about division by zero producing non-finite
results. -/

inductive EF (K : Type) where
  | fin (x : K) : EF K
  | inf : EF K
  | neginf : EF K
  | nan : EF K
deriving DecidableEq

namespace EF

variable {K : Type} [LinearOrderedField K]

/-- IEEE addition. -/
def add : EF K → EF K → EF K
  | nan, _ => nan
  | _, nan => nan
  | fin x, fin y => fin (x + y)
  | fin _, inf => inf
  | inf, fin _ => inf
  | inf, inf => inf
  | fin _, neginf => neginf
  | neginf, fin _ => neginf
  | neginf, neginf => neginf
  | inf, neginf => nan
  | neginf, inf => nan

/-- IEEE negation. -/
def neg : EF K → EF K
  | fin x => fin (-x)
  | inf => neginf
  | neginf => inf
  | nan => nan

/-- IEEE subtraction. -/
def sub (a b : EF K) : EF K := add a (neg b)

/-- IEEE multiplication. -/
def mul : EF K → EF K → EF K
  | nan, _ => nan
  | _, nan => nan
  | fin x, fin y => fin (x * y)
  | fin x, inf => if 0 < x then inf else if x < 0 then neginf else nan
  | inf, fin y => if 0 < y then inf else if y < 0 then neginf else nan
  | fin x, neginf => if 0 < x then neginf else if x < 0 then inf else nan
  | neginf, fin y => if 0 < y then neginf else if y < 0 then inf else nan
  | inf, inf => inf
  | inf, neginf => neginf
  | neginf, inf => neginf
  | neginf, neginf => inf

/-- IEEE division (the divisor zero of `K` behaves as `+0.0`). -/
def div : EF K → EF K → EF K
  | nan, _ => nan
  | _, nan => nan
  | fin x, fin y =>
      if y = 0 then (if 0 < x then inf else if x < 0 then neginf else nan)
      else fin (x / y)
  | fin _, inf => fin 0
  | fin _, neginf => fin 0
  | inf, fin y => if y < 0 then neginf else inf
  | neginf, fin y => if y < 0 then inf else neginf
  | inf, inf => nan
  | inf, neginf => nan
  | neginf, inf => nan
  | neginf, neginf => nan

/-- IEEE `powf(0.5)`, parametric in the finite square-root map `sq`
(`pow(-∞, 0.5) = +∞`, `pow` of a negative finite value is NaN). -/
def powf05 (sq : K → K) : EF K → EF K
  | fin x => if x < 0 then nan else fin (sq x)
  | inf => inf
  | neginf => inf
  | nan => nan

/-- Whether the value is finite (neither infinite nor NaN). -/
def isFinite : EF K → Bool
  | fin _ => true
  | _ => false

end EF

/-- The `compute_vix` arithmetic transcribed over `EF`, taking the six
group-derived quantities as inputs. -/
def computeVixEF {K : Type} [LinearOrderedField K] (sq : K → K)
    (t1 s1_sq n_t1 t2 s2_sq n_t2 : EF K) : EF K :=
  let n_30 : EF K := EF.fin 43200
  let n_365 : EF K := EF.fin 525600
  EF.mul
    (EF.powf05 sq
      (EF.div
        (EF.mul
          (EF.add
            (EF.div (EF.mul (EF.mul t1 s1_sq) (EF.sub n_t2 n_30)) (EF.sub n_t2 n_t1))
            (EF.div (EF.mul (EF.mul t2 s2_sq) (EF.sub n_30 n_t1)) (EF.sub n_t2 n_t1)))
          n_365)
        n_30))
    (EF.fin 100)

/-! ## Definitions following the claims' words (for refutation / comparison) -/

/-- Modelled from the claim's words (C1): the variance with the `a` term
guarded to `0` when `k_0 = 0`.  The code has no such guard; this definition
exists to be compared against `variance`. -/
noncomputable def varianceClaimGuarded (g : OptionsByExpiryDate) (now : Time) : ℝ :=
  let a : ℝ :=
    if g.k_0 now = 0 then 0 else (g.forward_price now : ℝ) / (g.k_0 now : ℝ) - 1
  (2 * g.contributions now - a * a) / g.time_to_expiration now

/-- Modelled from the claim's words (C9): the mark price as a floor
(round-down) of `(bid + ask) / 2`.  To be compared against
`OptionContract.mark`, which truncates toward zero. -/
def markClaimFloor (c : OptionContract) : Cents :=
  Int.fdiv (c.bid + c.ask) 2

/-- Modelled from the claim's words (C4): the selected option legs — the put
of every strike strictly below the `K₀` strike, the call of every strike at or
above the forward price, and both legs of the `K₀` strike itself (when a
strike below the forward price exists at all). -/
noncomputable def selectedOptionsClaim (g : OptionsByExpiryDate) (now : Time) :
    List (OptionContract × Cents) :=
  match g.kStrike now with
  | some k =>
      (g.get_strikes.filter (fun s => decide (s.price < k.price))).map
          (fun s => (s.put, s.delta_k))
        ++ (g.get_strikes.filter (fun s => decide (g.forward_price now ≤ s.price))).map
          (fun s => (s.call, s.delta_k))
        ++ [(k.call, k.delta_k), (k.put, k.delta_k)]
  | none =>
      (g.get_strikes.filter (fun s => decide (g.forward_price now ≤ s.price))).map
        (fun s => (s.call, s.delta_k))

/-! ## Concrete sample data -/

/-- A contract constructor shorthand for samples. -/
def mkC (e : Time) (k : Cents) (kd : OptionKind) (b a : Cents) : OptionContract :=
  ⟨e, k, kd, b, a⟩

/-- An empty expiry group expiring exactly one year after time 0. -/
noncomputable def gEmpty : OptionsByExpiryDate := ⟨525600, 0, [], []⟩

/-- A group with a single liquid strike (price 10000), one year out. -/
noncomputable def gOne : OptionsByExpiryDate :=
  ⟨525600, 0, [mkC 525600 10000 OptionKind.Call 90 110], [mkC 525600 10000 OptionKind.Put 95 105]⟩

/-- A group with three liquid strikes (10000, 11000, 13000), one year out,
whose at-the-money strike (smallest `|call - put|` mark gap) is 11000. -/
noncomputable def gThree : OptionsByExpiryDate :=
  ⟨525600, 0,
    [mkC 525600 10000 OptionKind.Call 400 600, mkC 525600 11000 OptionKind.Call 60 80,
      mkC 525600 13000 OptionKind.Call 20 40],
    [mkC 525600 10000 OptionKind.Put 90 110, mkC 525600 11000 OptionKind.Put 60 80,
      mkC 525600 13000 OptionKind.Put 300 340]⟩

/-- Contracts for the `group_options_by_expiry` counterexample: two contracts
with expiry 0 separated by one with expiry 1. -/
def ceSplitA : OptionContract := mkC 0 100 OptionKind.Call 1 2

/-- The interposed contract with a different expiry. -/
def ceSplitB : OptionContract := mkC 1 100 OptionKind.Call 1 2

/-- The second expiry-0 contract, arriving after `ceSplitB`. -/
def ceSplitC : OptionContract := mkC 0 200 OptionKind.Call 1 2

/-- A contract whose bid+ask sum is odd and negative (legal: no invariant is
enforced on signs), separating floor from truncation toward zero. -/
def cNegOdd : OptionContract := mkC 0 100 OptionKind.Call (-3) 0

/-- The expiry-0 group produced for the contiguous input `[ceSplitA, ceSplitB]`. -/
noncomputable def ceGroup : OptionsByExpiryDate := ⟨0, 0.003, [ceSplitA], []⟩

/-- The `delta_k` completion applied to one strike (the body of the final
`map` in `get_strikes`). -/
def OptionsByExpiryDate.assignDeltaK (g : OptionsByExpiryDate) (s : OptionStrike) :
    OptionStrike :=
  { s with delta_k := (lookupA g.deltaMap s.price).getD 0 }

/-- The below-forward strikes in their original ascending order (the first
partition component of `variance` before sorting). -/
noncomputable def OptionsByExpiryDate.belowFilter (g : OptionsByExpiryDate) (now : Time) :
    List OptionStrike :=
  g.get_strikes.filter (fun x => decide (x.price < g.forward_price now))

/-- The group built from one expiry run (the body of the fold in
`group_options_by_expiry`). -/
noncomputable def mkExpiryGroup (r : Time × List OptionContract) : OptionsByExpiryDate :=
  ⟨r.1, 0.003,
    (r.2.partition (fun o => decide (o.kind = OptionKind.Call))).1,
    (r.2.partition (fun o => decide (o.kind = OptionKind.Call))).2⟩

/-- The input's equal-expiry contracts appear consecutively (each expiry forms
a single run). -/
def expiryClustered (options : List OptionContract) : Prop :=
  (((groupRunsBy (fun o => o.expires_at) options)).map (fun r => r.1)).Pairwise
    (fun a b => a ≠ b)

/-- An `EF` value is non-finite when it is an infinity or NaN. -/
def EF.NonFin {K : Type} (x : EF K) : Prop := x = EF.inf ∨ x = EF.neginf ∨ x = EF.nan

/-- The three strikes of `gThree` after aggregation. -/
def w1 : OptionStrike :=
  ⟨10000, mkC 525600 10000 OptionKind.Put 90 110, mkC 525600 10000 OptionKind.Call 400 600, 0⟩

/-- The middle strike of `gThree` (the at-the-money one, `delta_k = 1500`). -/
def w2 : OptionStrike :=
  ⟨11000, mkC 525600 11000 OptionKind.Put 60 80, mkC 525600 11000 OptionKind.Call 60 80, 1500⟩

/-- The highest strike of `gThree`. -/
def w3 : OptionStrike :=
  ⟨13000, mkC 525600 13000 OptionKind.Put 300 340, mkC 525600 13000 OptionKind.Call 20 40, 0⟩

/-! ## Lemmas about the association-list map -/

theorem lookupA_insertA {K V : Type} [DecidableEq K] (m : List (K × V)) (k p : K) (v : V) :
    lookupA (insertA m k v) p = if k = p then some v else lookupA m p := by
  induction m with
  | nil => simp [insertA, lookupA]
  | cons kv rest ih =>
    obtain ⟨k', v'⟩ := kv
    by_cases hk : k' = k
    · subst hk
      by_cases hp : k' = p
      · subst hp
        simp [insertA, lookupA]
      · simp [insertA, lookupA, hp]
    · by_cases hp : k' = p
      · have hkp : k ≠ p := fun h => hk (hp.trans h.symm)
        have hpk : p ≠ k := fun h => hkp h.symm
        simp [insertA, lookupA, hk, hp, hkp, hpk]
      · simp [insertA, lookupA, hk, hp, ih]

/-- Looking up after a fold of insertions: a key bound by none of the inserted
entries falls through to the initial map. -/
theorem lookupA_foldl_of_not_mem {K V A : Type} [DecidableEq K]
    (keyOf : A → K) (valOf : A → V) (ws : List A) (p : K) :
    (∀ w ∈ ws, keyOf w ≠ p) → ∀ m0 : List (K × V),
      lookupA (ws.foldl (fun m w => insertA m (keyOf w) (valOf w)) m0) p = lookupA m0 p := by
  induction ws with
  | nil => intro _ m0; rfl
  | cons w ws ih =>
    intro h m0
    have hw : keyOf w ≠ p := h w (by simp)
    have hrest : ∀ w' ∈ ws, keyOf w' ≠ p := fun w' hm => h w' (by simp [hm])
    simp only [List.foldl_cons]
    rw [ih hrest, lookupA_insertA]
    simp [hw]

/-- Looking up after a fold of insertions with pairwise-distinct keys: the
entry inserted for `p` is found. -/
theorem lookupA_foldl_of_mem {K V A : Type} [DecidableEq K]
    (keyOf : A → K) (valOf : A → V) (ws : List A) (w : A) :
    (ws.map keyOf).Pairwise (fun a b => a ≠ b) → w ∈ ws → ∀ m0 : List (K × V),
      lookupA (ws.foldl (fun m w => insertA m (keyOf w) (valOf w)) m0) (keyOf w)
        = some (valOf w) := by
  induction ws with
  | nil => intro _ h; exact absurd h (by simp)
  | cons w0 ws ih =>
    intro hnd hmem m0
    simp only [List.map_cons, List.pairwise_cons] at hnd
    rcases List.mem_cons.mp hmem with h0 | hrest
    · subst h0
      have hnot : ∀ w' ∈ ws, keyOf w' ≠ keyOf w :=
        fun w' hm h => (hnd.1 (keyOf w') (List.mem_map_of_mem keyOf hm)) h.symm
      simp only [List.foldl_cons]
      rw [lookupA_foldl_of_not_mem keyOf valOf ws (keyOf w) hnot, lookupA_insertA]
      simp
    · exact ih hnd.2 hrest _

/-- A successful lookup in a fold of insertions over an empty map comes from
one of the inserted entries. -/
theorem lookupA_foldl_mem {K V A : Type} [DecidableEq K]
    (keyOf : A → K) (valOf : A → V) (ws : List A) (p : K) (v : V) :
    ∀ m0 : List (K × V),
      lookupA (ws.foldl (fun m w => insertA m (keyOf w) (valOf w)) m0) p = some v →
        (∃ w ∈ ws, keyOf w = p ∧ valOf w = v) ∨ lookupA m0 p = some v := by
  induction ws with
  | nil => intro m0 h; exact Or.inr h
  | cons w0 ws ih =>
    intro m0 h
    simp only [List.foldl_cons] at h
    rcases ih _ h with ⟨w, hw, hkey, hval⟩ | hbase
    · exact Or.inl ⟨w, by simp [hw], hkey, hval⟩
    · rw [lookupA_insertA] at hbase
      by_cases hk : keyOf w0 = p
      · simp only [hk, if_pos rfl] at hbase
        exact Or.inl ⟨w0, by simp, hk, by injection hbase⟩
      · simp only [if_neg hk] at hbase
        exact Or.inr hbase

/-- A lookup after a fold of insertions succeeds iff the key was inserted or
already present. -/
theorem lookupA_foldl_isSome {K V A : Type} [DecidableEq K]
    (keyOf : A → K) (valOf : A → V) (ws : List A) (p : K) :
    ∀ m0 : List (K × V),
      (lookupA (ws.foldl (fun m w => insertA m (keyOf w) (valOf w)) m0) p).isSome
        = ((ws.map keyOf).contains p || (lookupA m0 p).isSome) := by
  induction ws with
  | nil => intro m0; simp
  | cons w0 ws ih =>
    intro m0
    simp only [List.foldl_cons]
    rw [ih]
    rw [lookupA_insertA]
    by_cases hk : keyOf w0 = p
    · simp [hk]
    · simp [hk, Ne.symm hk]

/-! ## Lemmas about `groupRunsBy` -/

section GroupRuns

variable {α K : Type} [DecidableEq K] {key : α → K}

/-- Concatenating the runs recovers the original list. -/
theorem groupRunsBy_flatten (l : List α) :
    ((groupRunsBy key l).flatMap (fun r => r.2)) = l := by
  induction l with
  | nil => rfl
  | cons a rest ih =>
    cases h : groupRunsBy key rest with
    | nil =>
      rw [h] at ih
      simp only [List.flatMap_nil] at ih
      simp [groupRunsBy, h, ← ih]
    | cons r gs =>
      obtain ⟨k, run⟩ := r
      rw [h] at ih
      by_cases hk : key a = k
      · simp only [groupRunsBy, h, if_pos hk]
        simp only [List.flatMap_cons] at ih ⊢
        simp [ih]
      · simp only [groupRunsBy, h, if_neg hk]
        simp only [List.flatMap_cons] at ih ⊢
        simp [ih]

/-- Every run is nonempty and all its elements carry the run's key. -/
theorem groupRunsBy_run_key (l : List α) :
    ∀ r ∈ groupRunsBy key l, r.2 ≠ [] ∧ ∀ x ∈ r.2, key x = r.1 := by
  induction l with
  | nil => intro r hr; exact absurd hr (by simp [groupRunsBy])
  | cons a rest ih =>
    intro r hr
    cases h : groupRunsBy key rest with
    | nil =>
      simp only [groupRunsBy, h] at hr
      rcases List.mem_singleton.mp hr with rfl
      exact ⟨by simp, by simp⟩
    | cons r0 gs =>
      obtain ⟨k, run⟩ := r0
      rw [h] at ih
      by_cases hk : key a = k
      · simp only [groupRunsBy, h, if_pos hk] at hr
        rcases List.mem_cons.mp hr with rfl | hmem
        · refine ⟨by simp, ?_⟩
          intro x hx
          rcases List.mem_cons.mp hx with rfl | hx
          · exact hk
          · exact (ih (k, run) (by simp)).2 x hx
        · exact ih r (by simp [hmem])
      · simp only [groupRunsBy, h, if_neg hk] at hr
        rcases List.mem_cons.mp hr with rfl | hmem
        · exact ⟨by simp, by simp⟩
        · exact ih r hmem

/-- Every run key is the key of some element of the list. -/
theorem groupRunsBy_key_mem (l : List α) (r : K × List α) (hr : r ∈ groupRunsBy key l) :
    ∃ x ∈ l, key x = r.1 := by
  obtain ⟨hne, hkeys⟩ := groupRunsBy_run_key l r hr
  obtain ⟨x, hx⟩ := List.exists_mem_of_ne_nil r.2 hne
  refine ⟨x, ?_, hkeys x hx⟩
  have : x ∈ (groupRunsBy key l).flatMap (fun r => r.2) :=
    List.mem_flatMap.mpr ⟨r, hr, hx⟩
  rwa [groupRunsBy_flatten] at this

/-- Every element of the list lies in some run (with its own key). -/
theorem groupRunsBy_mem_run (l : List α) (x : α) (hx : x ∈ l) :
    ∃ r ∈ groupRunsBy key l, x ∈ r.2 ∧ r.1 = key x := by
  have : x ∈ (groupRunsBy key l).flatMap (fun r => r.2) := by
    rwa [groupRunsBy_flatten]
  obtain ⟨r, hr, hxr⟩ := List.mem_flatMap.mp this
  exact ⟨r, hr, hxr, ((groupRunsBy_run_key l r hr).2 x hxr).symm⟩

/-- For a list sorted by key, run keys are strictly increasing. -/
theorem groupRunsBy_keys_sorted {le : K → K → Prop} [IsPartialOrder K le]
    (lt : K → K → Prop) (hlt : ∀ a b, lt a b ↔ le a b ∧ a ≠ b) (l : List α)
    (hl : l.Pairwise (fun x y => le (key x) (key y))) :
    ((groupRunsBy key l).map (fun r => r.1)).Pairwise lt := by
  induction l with
  | nil => simp [groupRunsBy]
  | cons a rest ih =>
    rw [List.pairwise_cons] at hl
    have hle : ∀ x ∈ rest, le (key a) (key x) := hl.1
    have ihall := ih hl.2
    cases h : groupRunsBy key rest with
    | nil => simp [groupRunsBy, h]
    | cons r0 gs =>
      obtain ⟨k, run⟩ := r0
      rw [h] at ihall
      have hkmem : ∀ k' ∈ ((k, run) :: gs).map (fun r : K × List α => r.1),
          ∃ x ∈ rest, key x = k' := by
        intro k' hk'
        obtain ⟨r, hr, hrk⟩ := List.mem_map.mp hk'
        obtain ⟨x, hx, hxk⟩ := groupRunsBy_key_mem rest r (h ▸ hr)
        exact ⟨x, hx, hrk ▸ hxk⟩
      by_cases hk : key a = k
      · simpa [groupRunsBy, h, if_pos hk] using ihall
      · simp only [groupRunsBy, h, if_neg hk, List.map_cons]
        refine List.Pairwise.cons ?_ (by simpa using ihall)
        intro k' hk'
        have hk'mem : k' ∈ ((k, run) :: gs).map (fun r : K × List α => r.1) := by
          simpa using hk'
        obtain ⟨x, hx, hxk⟩ := hkmem k' hk'mem
        rcases List.mem_cons.mp hk'mem with heq | htail
        · refine (hlt (key a) k').mpr ⟨hxk ▸ hle x hx, ?_⟩
          rw [heq]; exact hk
        · -- k' is a later key: key a ≤ k' and key a ≠ k' since key a < k ≤ k'
          have hlek : le (key a) k' := hxk ▸ hle x hx
          refine (hlt (key a) k').mpr ⟨hlek, ?_⟩
          intro hEq
          -- key a = k' but k' is strictly greater than k by ihall, while key a ≤ k
          have hkk' : lt k k' := by
            rw [List.map_cons, List.pairwise_cons] at ihall
            exact ihall.1 k' htail
          obtain ⟨xk, hxkmem, hxkk⟩ := hkmem k (by simp)
          have hlek2 : le (key a) k := hxkk ▸ hle xk hxkmem
          have hstep := (hlt k k').mp hkk'
          have hk'k : le k' k := hEq ▸ hlek2
          exact hstep.2 (IsAntisymm.antisymm k k' hstep.1 hk'k)

/-- In a list of pairs with pairwise-distinct first components, the second
component is determined by the first. -/
theorem pairs_key_unique {K' V : Type} : ∀ l : List (K' × V),
    (l.map (fun r => r.1)).Pairwise (fun a b => a ≠ b) →
    ∀ {k : K'} {v1 v2 : V}, (k, v1) ∈ l → (k, v2) ∈ l → v1 = v2 := by
  intro l
  induction l with
  | nil => intro _ k v1 v2 h1 _; exact absurd h1 (by simp)
  | cons p rest ih =>
    intro hnd k v1 v2 h1 h2
    obtain ⟨pk, pv⟩ := p
    simp only [List.map_cons, List.pairwise_cons] at hnd
    rcases List.mem_cons.mp h1 with he1 | hm1
    · rw [Prod.mk.injEq] at he1
      obtain ⟨hek, hev⟩ := he1
      rcases List.mem_cons.mp h2 with he2 | hm2
      · rw [Prod.mk.injEq] at he2
        exact hev.trans he2.2.symm
      · exact absurd rfl
          (hek ▸ hnd.1 k (List.mem_map.mpr ⟨(k, v2), hm2, rfl⟩))
    · rcases List.mem_cons.mp h2 with he2 | hm2
      · rw [Prod.mk.injEq] at he2
        exact absurd rfl
          (he2.1 ▸ hnd.1 k (List.mem_map.mpr ⟨(k, v1), hm1, rfl⟩))
      · exact ih hnd.2 hm1 hm2

/-- With pairwise-distinct keys, the run for a key is unique. -/
theorem groupRunsBy_run_unique (l : List α)
    (hnd : ((groupRunsBy key l).map (fun r => r.1)).Pairwise (fun a b => a ≠ b))
    {k : K} {r1 r2 : List α}
    (h1 : (k, r1) ∈ groupRunsBy key l) (h2 : (k, r2) ∈ groupRunsBy key l) : r1 = r2 :=
  pairs_key_unique (groupRunsBy key l) hnd h1 h2

/-- With pairwise-distinct run keys (i.e. equal-key elements appear
consecutively), the run for key `k` consists of exactly the elements of the
list whose key is `k`, in order. -/
theorem groupRunsBy_run_eq_filter : ∀ l : List α,
    ((groupRunsBy key l).map (fun r => r.1)).Pairwise (fun a b => a ≠ b) →
    ∀ {k : K} {run : List α}, (k, run) ∈ groupRunsBy key l →
      run = l.filter (fun x => decide (key x = k)) := by
  intro l
  induction l with
  | nil => intro _ k run hr; exact absurd hr (by simp [groupRunsBy])
  | cons a rest ih =>
    intro hnd k run hr
    cases h : groupRunsBy key rest with
    | nil =>
      have hrest : rest = [] := by
        have hfl := @groupRunsBy_flatten α K _ key rest
        rw [h] at hfl
        simpa using hfl.symm
      subst hrest
      simp only [groupRunsBy, h] at hr
      rw [List.mem_singleton, Prod.mk.injEq] at hr
      obtain ⟨hk, hrun⟩ := hr
      subst hrun
      simp [hk.symm]
    | cons r0 gs =>
      obtain ⟨k0, run0⟩ := r0
      rw [h] at ih
      by_cases hk : key a = k0
      · simp only [groupRunsBy, h, if_pos hk] at hr hnd
        have hnd' : (((k0, run0) :: gs).map (fun r : K × List α => r.1)).Pairwise
            (fun a b => a ≠ b) := by
          rw [List.map_cons]
          rw [List.map_cons] at hnd
          exact hnd
        rcases List.mem_cons.mp hr with heq | hmem
        · rw [Prod.mk.injEq] at heq
          obtain ⟨hkk, hrun⟩ := heq
          subst hkk
          subst hrun
          have hfilter := ih hnd' (List.mem_cons_self (k, run0) gs)
          rw [List.filter_cons_of_pos (by simp [hk])]
          exact congrArg (List.cons a) hfilter
        · -- a run of the tail: its key differs from k0 = key a, so `a` is dropped
          have hkey : k0 ≠ k := by
            have hnd2 := hnd
            rw [List.map_cons, List.pairwise_cons] at hnd2
            exact hnd2.1 k (List.mem_map.mpr ⟨(k, run), hmem, rfl⟩)
          have hihf := ih hnd' (List.mem_cons_of_mem _ hmem)
          have hpred : key a ≠ k := by rw [hk]; exact hkey
          rw [List.filter_cons_of_neg (by simpa using hpred)]
          exact hihf
      · simp only [groupRunsBy, h, if_neg hk] at hr hnd
        rw [List.map_cons, List.pairwise_cons] at hnd
        have hnd' : (((k0, run0) :: gs).map (fun r : K × List α => r.1)).Pairwise
            (fun a b => a ≠ b) := hnd.2
        rcases List.mem_cons.mp hr with heq | hmem
        · rw [Prod.mk.injEq] at heq
          obtain ⟨hkk, hrun⟩ := heq
          subst hrun
          -- no element of rest has key `key a`
          have hnone : ∀ x ∈ rest, key x ≠ k := by
            intro x hx hEq
            obtain ⟨r, hrmem, _, hrk⟩ := @groupRunsBy_mem_run α K _ key rest x hx
            rw [h] at hrmem
            exact hnd.1 (r.1) (List.mem_map.mpr ⟨r, hrmem, rfl⟩) (by rw [hrk, hEq, ← hkk])
          rw [List.filter_cons_of_pos (by simp [hkk])]
          have hrestnil : rest.filter (fun x => decide (key x = k)) = [] :=
            List.filter_eq_nil_iff.mpr (by simpa using hnone)
          rw [hrestnil]
        · have hkey : key a ≠ k := fun hEq =>
            hnd.1 k (List.mem_map.mpr ⟨(k, run), hmem, rfl⟩) hEq
          have hihf := ih hnd' hmem
          rw [List.filter_cons_of_neg (by simpa using hkey)]
          exact hihf

end GroupRuns

/-! ## Lemmas about `windows3` -/

/-- The middle elements of the windows form a sublist of the tail. -/
theorem windows3_middles_sublist_tail {α : Type} :
    ∀ (x : α) (tail : List α),
      ((windows3 (x :: tail)).map (fun w => w.2.1)).Sublist tail := by
  intro x tail
  induction tail generalizing x with
  | nil => simp [windows3]
  | cons b t ih =>
    cases t with
    | nil => simp [windows3]
    | cons c rest =>
      simp only [windows3, List.map_cons]
      exact List.Sublist.cons₂ b (ih b)

/-- The middle elements of the windows form a sublist of `dropLast` of the
tail (they exclude the last element). -/
theorem windows3_middles_sublist_dropLast {α : Type} :
    ∀ (x : α) (tail : List α),
      ((windows3 (x :: tail)).map (fun w => w.2.1)).Sublist tail.dropLast := by
  intro x tail
  induction tail generalizing x with
  | nil => simp [windows3]
  | cons b t ih =>
    cases t with
    | nil => simp [windows3]
    | cons c rest =>
      simp only [windows3, List.map_cons, List.dropLast_cons₂]
      exact List.Sublist.cons₂ b (ih b)

/-- A window of a longer list: consing an element preserves window membership. -/
theorem mem_windows3_cons {α : Type} {w : α × α × α} {t : List α} (p : α)
    (hw : w ∈ windows3 t) : w ∈ windows3 (p :: t) := by
  match t with
  | [] => exact absurd hw (by simp [windows3])
  | [_] => exact absurd hw (by simp [windows3])
  | t0 :: t1 :: t2 =>
    simp only [windows3]
    exact List.mem_cons_of_mem _ hw

/-- Window membership from a decomposition of the list. -/
theorem mem_windows3_of_append {α : Type} (a b c : α) :
    ∀ (pre post : List α), (a, b, c) ∈ windows3 (pre ++ a :: b :: c :: post) := by
  intro pre post
  induction pre with
  | nil => simp [windows3]
  | cons p pre ih => exact mem_windows3_cons p ih

/-- A window is three consecutive elements of the list. -/
theorem windows3_decomp {α : Type} :
    ∀ (l : List α) (w : α × α × α), w ∈ windows3 l →
      ∃ pre post, l = pre ++ w.1 :: w.2.1 :: w.2.2 :: post := by
  intro l
  induction l with
  | nil => intro w hw; exact absurd hw (by simp [windows3])
  | cons a t ih =>
    intro w hw
    cases t with
    | nil => exact absurd hw (by simp [windows3])
    | cons b t2 =>
      cases t2 with
      | nil => exact absurd hw (by simp [windows3])
      | cons c rest =>
        simp only [windows3] at hw
        rcases List.mem_cons.mp hw with heq | hmem
        · subst heq
          exact ⟨[], rest, rfl⟩
        · obtain ⟨pre, post, hdec⟩ := ih w hmem
          exact ⟨a :: pre, post, by rw [List.cons_append, ← hdec]⟩

/-- If a list has fewer than three elements it has no windows. -/
theorem windows3_eq_nil_of_short {α : Type} (l : List α) (h : l.length < 3) :
    windows3 l = [] := by
  match l with
  | [] => rfl
  | [_] => rfl
  | [_, _] => rfl
  | _ :: _ :: _ :: _ => simp at h; omega

/-! ## Pairwise through `filterMap` -/

theorem pairwise_filterMap_of_pairwise {α β : Type} (f : α → Option β)
    (R : α → α → Prop) (S : β → β → Prop)
    (hf : ∀ a b a' b', f a = some a' → f b = some b' → R a b → S a' b') :
    ∀ l : List α, l.Pairwise R → (l.filterMap f).Pairwise S := by
  intro l
  induction l with
  | nil => intro _; simp
  | cons a rest ih =>
    intro hp
    rw [List.pairwise_cons] at hp
    cases hfa : f a with
    | none => rw [List.filterMap_cons_none hfa]; exact ih hp.2
    | some b =>
      rw [List.filterMap_cons_some hfa]
      rw [List.pairwise_cons]
      refine ⟨?_, ih hp.2⟩
      intro b' hb'
      obtain ⟨a', ha', hfa'⟩ := List.mem_filterMap.mp hb'
      exact hf a a' b b' hfa hfa' (hp.1 a' ha')

/-! ## Structure of the `get_strikes` pipeline -/

namespace OptionsByExpiryDate

variable (g : OptionsByExpiryDate)

/-- The sorted liquid options are pairwise ordered by strike. -/
theorem sortedOptions_sorted : g.sortedOptions.Pairwise byStrike :=
  List.sorted_insertionSort byStrike g.liquidOptions

/-- Membership in `sortedOptions` is membership in the liquidity-filtered
concatenation. -/
theorem mem_sortedOptions_iff (o : OptionContract) :
    o ∈ g.sortedOptions ↔ (o ∈ g.calls ++ g.puts) ∧ o.bid ≠ 0 := by
  unfold sortedOptions
  rw [(List.perm_insertionSort byStrike g.liquidOptions).mem_iff]
  unfold liquidOptions
  rw [List.mem_filter]
  simp

/-- The strike-run keys are strictly increasing. -/
theorem strikeRuns_keys_sorted :
    (g.strikeRuns.map (fun r => r.1)).Pairwise (fun a b => a < b) := by
  refine @groupRunsBy_keys_sorted OptionContract Cents _ (fun o => o.strike)
    (fun a b => a ≤ b) _ (fun a b => a < b)
    (fun a b => lt_iff_le_and_ne) g.sortedOptions ?_
  exact g.sortedOptions_sorted.imp (fun h => h)

/-- Elements of a strike run are sorted-liquid options with strike the run key. -/
theorem strikeRuns_run_elems {r : Cents × List OptionContract} (hr : r ∈ g.strikeRuns) :
    r.2 ≠ [] ∧ ∀ x ∈ r.2, x.strike = r.1 ∧ x ∈ g.sortedOptions := by
  obtain ⟨hne, hkey⟩ := groupRunsBy_run_key g.sortedOptions r hr
  refine ⟨hne, fun x hx => ⟨hkey x hx, ?_⟩⟩
  have hmem : x ∈ (groupRunsBy (fun o => o.strike) g.sortedOptions).flatMap
      (fun r => r.2) := List.mem_flatMap.mpr ⟨r, hr, hx⟩
  rwa [groupRunsBy_flatten] at hmem

/-- `pairStrike` inverted: what a successful pairing tells us. -/
theorem pairStrike_some {r : Cents × List OptionContract} {s : OptionStrike}
    (h : pairStrike r = some s) :
    s.price = r.1 ∧ s.delta_k = 0 ∧
      s.call ∈ r.2 ∧ s.call.kind = OptionKind.Call ∧
      s.put ∈ r.2 ∧ s.put.kind = OptionKind.Put := by
  unfold pairStrike at h
  cases hc : r.2.find? (fun o => o.kind = OptionKind.Call) with
  | none => rw [hc] at h; exact absurd h (by simp)
  | some c =>
    cases hp : r.2.find? (fun o => o.kind = OptionKind.Put) with
    | none => rw [hc, hp] at h; exact absurd h (by simp)
    | some p =>
      rw [hc, hp] at h
      injection h with h
      subst h
      refine ⟨rfl, rfl, List.mem_of_find?_eq_some hc, ?_,
        List.mem_of_find?_eq_some hp, ?_⟩
      · have := List.find?_some hc
        simpa using this
      · have := List.find?_some hp
        simpa using this

/-- `pairStrike` succeeds exactly when the run contains both kinds. -/
theorem pairStrike_isSome_iff (r : Cents × List OptionContract) :
    (pairStrike r).isSome ↔
      (∃ c ∈ r.2, c.kind = OptionKind.Call) ∧ (∃ p ∈ r.2, p.kind = OptionKind.Put) := by
  unfold pairStrike
  cases hc : r.2.find? (fun o => o.kind = OptionKind.Call) with
  | none =>
    simp only [Option.isSome_none]
    constructor
    · intro h; exact absurd h (by simp)
    · intro ⟨⟨c, hcm, hck⟩, _⟩
      have : (r.2.find? (fun o => o.kind = OptionKind.Call)).isSome :=
        List.find?_isSome.mpr ⟨c, hcm, by simp [hck]⟩
      rw [hc] at this
      exact absurd this (by simp)
  | some c =>
    cases hp : r.2.find? (fun o => o.kind = OptionKind.Put) with
    | none =>
      simp only [Option.isSome_none]
      constructor
      · intro h; exact absurd h (by simp)
      · intro ⟨_, ⟨p, hpm, hpk⟩⟩
        have : (r.2.find? (fun o => o.kind = OptionKind.Put)).isSome :=
          List.find?_isSome.mpr ⟨p, hpm, by simp [hpk]⟩
        rw [hp] at this
        exact absurd this (by simp)
    | some p =>
      refine ⟨fun _ => ⟨⟨c, List.mem_of_find?_eq_some hc, by simpa using List.find?_some hc⟩,
        ⟨p, List.mem_of_find?_eq_some hp, by simpa using List.find?_some hp⟩⟩, fun _ => ?_⟩
      simp

/-- The strikes before the `delta_k` pass, in strictly increasing price order
even before the redundant final sort. -/
theorem rawStrikes_pairwise :
    (g.strikeRuns.filterMap pairStrike).Pairwise (fun a b => a.price < b.price) := by
  refine pairwise_filterMap_of_pairwise pairStrike
    (fun r1 r2 => r1.1 < r2.1) (fun a b => a.price < b.price) ?_ g.strikeRuns ?_
  · intro r1 r2 s1 s2 h1 h2 hlt
    rw [(pairStrike_some h1).1, (pairStrike_some h2).1]
    exact hlt
  · -- transfer pairwise over keys to pairwise over the pairs
    have hkeys := g.strikeRuns_keys_sorted
    rw [List.pairwise_map] at hkeys
    exact hkeys

/-- The final sort in `get_strikes` is the identity: the list is already
sorted ascending by price. -/
theorem sortedStrikes_eq : g.sortedStrikes = g.strikeRuns.filterMap pairStrike := by
  unfold sortedStrikes
  exact List.Sorted.insertionSort_eq
    ((g.rawStrikes_pairwise).imp (fun h => le_of_lt h))

/-- The strikes (before `delta_k`) are strictly increasing in price. -/
theorem sortedStrikes_pairwise :
    g.sortedStrikes.Pairwise (fun a b => a.price < b.price) := by
  rw [sortedStrikes_eq]
  exact g.rawStrikes_pairwise

end OptionsByExpiryDate

namespace OptionsByExpiryDate

variable (g : OptionsByExpiryDate)

/-- Membership in the liquidity-filtered list, unfolded. -/
theorem mem_liquidOptions_iff (o : OptionContract) :
    o ∈ g.liquidOptions ↔ (o ∈ g.calls ++ g.puts) ∧ o.bid ≠ 0 := by
  unfold liquidOptions
  rw [List.mem_filter]
  simp

/-- `get_strikes` is the `delta_k` completion of the sorted strikes. -/
theorem get_strikes_eq_map : g.get_strikes = g.sortedStrikes.map g.assignDeltaK := rfl

/-- The completion only changes `delta_k`. -/
theorem assignDeltaK_fields (s : OptionStrike) :
    (g.assignDeltaK s).price = s.price ∧ (g.assignDeltaK s).call = s.call ∧
      (g.assignDeltaK s).put = s.put := ⟨rfl, rfl, rfl⟩

/-- Output strikes are strictly increasing in price. -/
theorem get_strikes_pairwise :
    g.get_strikes.Pairwise (fun a b => a.price < b.price) := by
  rw [get_strikes_eq_map]
  exact List.Pairwise.map g.assignDeltaK (fun a b h => h) g.sortedStrikes_pairwise

/-- The keys inserted into the `delta_ks` map (the middle prices of the
windows) are pairwise distinct. -/
theorem deltaMap_keys_distinct :
    ((windows3 g.sortedStrikes).map (fun w => w.2.1.price)).Pairwise
      (fun a b => a ≠ b) := by
  have hmid : ((windows3 g.sortedStrikes).map (fun w => w.2.1)).Sublist
      g.sortedStrikes := by
    cases hl : g.sortedStrikes with
    | nil => simp [windows3]
    | cons x tail =>
      exact (windows3_middles_sublist_tail x tail).trans (List.sublist_cons_self x tail)
  have hprices : (g.sortedStrikes.map (fun s => s.price)).Pairwise (fun a b => a ≠ b) := by
    rw [List.pairwise_map]
    exact g.sortedStrikes_pairwise.imp (fun h => ne_of_lt h)
  have hsub := hmid.map (fun s : OptionStrike => s.price)
  have hres := List.Pairwise.sublist hsub hprices
  rwa [List.map_map] at hres

/-- Looking up a window's middle price in the `delta_ks` map yields that
window's half-spread. -/
theorem lookup_deltaMap_middle {w : OptionStrike × OptionStrike × OptionStrike}
    (hw : w ∈ windows3 g.sortedStrikes) :
    lookupA g.deltaMap w.2.1.price = some (rustDiv (w.2.2.price - w.1.price) 2) := by
  unfold deltaMap
  exact lookupA_foldl_of_mem (fun w => w.2.1.price)
    (fun w => rustDiv (w.2.2.price - w.1.price) 2) (windows3 g.sortedStrikes) w
    g.deltaMap_keys_distinct hw []

/-- A price that is no window's middle is absent from the `delta_ks` map. -/
theorem lookup_deltaMap_none {p : Cents}
    (hp : ∀ w ∈ windows3 g.sortedStrikes, w.2.1.price ≠ p) :
    lookupA g.deltaMap p = none := by
  unfold deltaMap
  rw [lookupA_foldl_of_not_mem (fun w => w.2.1.price)
    (fun w => rustDiv (w.2.2.price - w.1.price) 2) (windows3 g.sortedStrikes) p hp []]
  rfl

/-- Membership in `sortedStrikes`, characterized by the runs. -/
theorem mem_sortedStrikes_iff (s : OptionStrike) :
    s ∈ g.sortedStrikes ↔ ∃ r ∈ g.strikeRuns, pairStrike r = some s := by
  rw [sortedStrikes_eq, List.mem_filterMap]

/-- Every output strike is well-formed: correctly-typed legs, matching
strikes, and nonzero bids. -/
theorem get_strikes_wellformed :
    ∀ s ∈ g.get_strikes, s.call.kind = OptionKind.Call ∧ s.put.kind = OptionKind.Put ∧
      s.call.strike = s.price ∧ s.put.strike = s.price ∧
      s.call.bid ≠ 0 ∧ s.put.bid ≠ 0 := by
  intro s hs
  rw [get_strikes_eq_map] at hs
  obtain ⟨s', hs', heq⟩ := List.mem_map.mp hs
  obtain ⟨r, hr, hps⟩ := (g.mem_sortedStrikes_iff s').mp hs'
  obtain ⟨hprice, _, hcm, hck, hpm, hpk⟩ := pairStrike_some hps
  have helems := (g.strikeRuns_run_elems hr).2
  have hcall := helems s'.call hcm
  have hput := helems s'.put hpm
  have hcallbid := ((g.mem_sortedOptions_iff s'.call).mp hcall.2).2
  have hputbid := ((g.mem_sortedOptions_iff s'.put).mp hput.2).2
  subst heq
  simp only [assignDeltaK]
  exact ⟨hck, hpk, by rw [hcall.1, hprice], by rw [hput.1, hprice],
    hcallbid, hputbid⟩

/-- A strike price appears in the output iff both a call and a put with that
strike survive the liquidity filter. -/
theorem price_mem_get_strikes_iff (p : Cents) :
    (∃ s ∈ g.get_strikes, s.price = p) ↔
      ((∃ c ∈ g.liquidOptions, c.kind = OptionKind.Call ∧ c.strike = p) ∧
        (∃ q ∈ g.liquidOptions, q.kind = OptionKind.Put ∧ q.strike = p)) := by
  constructor
  · rintro ⟨s, hs, rfl⟩
    rw [get_strikes_eq_map] at hs
    obtain ⟨s', hs', heq⟩ := List.mem_map.mp hs
    subst heq
    obtain ⟨r, hr, hpsome⟩ := (g.mem_sortedStrikes_iff s').mp hs'
    obtain ⟨hprice, _, hcm, hck, hpm, hpk⟩ := pairStrike_some hpsome
    have helems := (g.strikeRuns_run_elems hr).2
    have hcall := helems s'.call hcm
    have hput := helems s'.put hpm
    have hcliq : s'.call ∈ g.liquidOptions :=
      (g.mem_liquidOptions_iff s'.call).mpr ((g.mem_sortedOptions_iff s'.call).mp hcall.2)
    have hpliq : s'.put ∈ g.liquidOptions :=
      (g.mem_liquidOptions_iff s'.put).mpr ((g.mem_sortedOptions_iff s'.put).mp hput.2)
    refine ⟨⟨s'.call, hcliq, hck, ?_⟩, ⟨s'.put, hpliq, hpk, ?_⟩⟩
    · show s'.call.strike = (g.assignDeltaK s').price
      simp only [assignDeltaK]
      rw [hcall.1, hprice]
    · show s'.put.strike = (g.assignDeltaK s').price
      simp only [assignDeltaK]
      rw [hput.1, hprice]
  · rintro ⟨⟨c, hcliq, hck, hcs⟩, ⟨q, hqliq, hqk, hqs⟩⟩
    have hcsort : c ∈ g.sortedOptions :=
      (g.mem_sortedOptions_iff c).mpr ((g.mem_liquidOptions_iff c).mp hcliq)
    have hqsort : q ∈ g.sortedOptions :=
      (g.mem_sortedOptions_iff q).mpr ((g.mem_liquidOptions_iff q).mp hqliq)
    obtain ⟨rc, hrc, hcmem, hrck⟩ :=
      @groupRunsBy_mem_run OptionContract Cents _ (fun o => o.strike) g.sortedOptions c hcsort
    obtain ⟨rq, hrq, hqmem, hrqk⟩ :=
      @groupRunsBy_mem_run OptionContract Cents _ (fun o => o.strike) g.sortedOptions q hqsort
    have hkeysne : (g.strikeRuns.map (fun r => r.1)).Pairwise (fun a b => a ≠ b) :=
      g.strikeRuns_keys_sorted.imp (fun h => ne_of_lt h)
    -- both runs have key p, hence they are the same run
    have hrc' : (p, rc.2) ∈ g.strikeRuns := by
      have h1 : rc.1 = p := by rw [hrck, hcs]
      have h2 : (p, rc.2) = rc := by rw [← h1]
      rw [h2]
      exact hrc
    have hrq' : (p, rq.2) ∈ g.strikeRuns := by
      have h1 : rq.1 = p := by rw [hrqk, hqs]
      have h2 : (p, rq.2) = rq := by rw [← h1]
      rw [h2]
      exact hrq
    have hruneq : rc.2 = rq.2 := pairs_key_unique g.strikeRuns hkeysne hrc' hrq'
    have hboth : (pairStrike (p, rc.2)).isSome := by
      rw [pairStrike_isSome_iff]
      exact ⟨⟨c, hcmem, hck⟩, ⟨q, by rw [hruneq]; exact hqmem, hqk⟩⟩
    obtain ⟨s', hs'⟩ := Option.isSome_iff_exists.mp hboth
    have hsmem : s' ∈ g.sortedStrikes :=
      (g.mem_sortedStrikes_iff s').mpr ⟨(p, rc.2), hrc', hs'⟩
    refine ⟨g.assignDeltaK s', ?_, ?_⟩
    · rw [get_strikes_eq_map]
      exact List.mem_map_of_mem g.assignDeltaK hsmem
    · have := (pairStrike_some hs').1
      simpa [assignDeltaK] using this

end OptionsByExpiryDate

namespace OptionsByExpiryDate

variable (g : OptionsByExpiryDate)

/-- Middle strikes receive half the spread between their neighbours. -/
theorem get_strikes_middle_delta (pre post : List OptionStrike)
    (prev curr next : OptionStrike)
    (h : g.get_strikes = pre ++ prev :: curr :: next :: post) :
    curr.delta_k = rustDiv (next.price - prev.price) 2 := by
  rw [get_strikes_eq_map] at h
  obtain ⟨l1, l2, hl, hmap1, hmap2⟩ := List.map_eq_append_iff.mp h
  obtain ⟨p', l3, hl2, hfp, hmap3⟩ := List.map_eq_cons_iff.mp hmap2
  obtain ⟨c', l4, hl3, hfc, hmap4⟩ := List.map_eq_cons_iff.mp hmap3
  obtain ⟨n', l5, hl4, hfn, _⟩ := List.map_eq_cons_iff.mp hmap4
  have hdec : g.sortedStrikes = l1 ++ p' :: c' :: n' :: l5 := by
    rw [hl, hl2, hl3, hl4]
  have hw : (p', c', n') ∈ windows3 g.sortedStrikes := by
    rw [hdec]
    exact mem_windows3_of_append p' c' n' l1 l5
  have hlook := g.lookup_deltaMap_middle hw
  rw [← hfc]
  show (g.assignDeltaK c').delta_k = rustDiv (next.price - prev.price) 2
  simp only [assignDeltaK]
  rw [hlook]
  rw [← hfn, ← hfp]
  rfl

/-- The first strike receives `delta_k = 0`. -/
theorem get_strikes_head_delta {s : OptionStrike}
    (h : g.get_strikes.head? = some s) : s.delta_k = 0 := by
  rw [get_strikes_eq_map, List.head?_map] at h
  cases hl : g.sortedStrikes with
  | nil => rw [hl] at h; exact absurd h (by simp)
  | cons x tail =>
    rw [hl] at h
    simp only [List.head?_cons, Option.map_some'] at h
    have hnone : lookupA g.deltaMap x.price = none := by
      refine g.lookup_deltaMap_none ?_
      intro w hw hEq
      have hmid : w.2.1 ∈ tail := by
        have hsub := windows3_middles_sublist_tail x tail
        exact hsub.subset (List.mem_map_of_mem (fun w => w.2.1) (hl ▸ hw))
      have hprices := g.sortedStrikes_pairwise
      rw [hl, List.pairwise_cons] at hprices
      exact absurd hEq (ne_of_gt (hprices.1 w.2.1 hmid))
    injection h with h
    rw [← h]
    show (g.assignDeltaK x).delta_k = 0
    simp [assignDeltaK, hnone]

/-- The last strike receives `delta_k = 0`. -/
theorem get_strikes_last_delta {s : OptionStrike}
    (h : g.get_strikes.getLast? = some s) : s.delta_k = 0 := by
  rw [get_strikes_eq_map, List.getLast?_map] at h
  cases hlast : g.sortedStrikes.getLast? with
  | none => rw [hlast] at h; exact absurd h (by simp)
  | some y =>
    rw [hlast] at h
    simp only [Option.map_some'] at h
    have hlne : g.sortedStrikes ≠ [] := by
      intro hnil
      rw [hnil] at hlast
      exact absurd hlast (by simp)
    have hy : y = g.sortedStrikes.getLast hlne := by
      have := List.getLast?_eq_getLast g.sortedStrikes hlne
      rw [hlast] at this
      injection this
    have hsplit := List.dropLast_append_getLast hlne
    have hnone : lookupA g.deltaMap y.price = none := by
      refine g.lookup_deltaMap_none ?_
      intro w hw hEq
      -- the middle of any window lies in dropLast, whose prices differ from the last
      have hmid : w.2.1 ∈ g.sortedStrikes.dropLast := by
        cases hl : g.sortedStrikes with
        | nil => exact absurd hl hlne
        | cons x tail =>
          cases htail : tail with
          | nil =>
            rw [hl, htail] at hw
            exact absurd hw (by simp [windows3])
          | cons t0 t2 =>
            have hsub := windows3_middles_sublist_dropLast x tail
            have hin : w.2.1 ∈ tail.dropLast :=
              hsub.subset (List.mem_map_of_mem (fun w => w.2.1) (hl ▸ hw))
            rw [List.dropLast_cons₂]
            rw [htail] at hin
            exact List.mem_cons_of_mem x hin
      have hprices : (g.sortedStrikes.map (fun s => s.price)).Pairwise
          (fun a b => a ≠ b) := by
        rw [List.pairwise_map]
        exact g.sortedStrikes_pairwise.imp (fun h => ne_of_lt h)
      rw [← hsplit, List.map_append, List.pairwise_append] at hprices
      have := hprices.2.2 w.2.1.price
        (List.mem_map_of_mem (fun s => s.price) hmid)
        ((g.sortedStrikes.getLast hlne).price) (by simp)
      rw [← hy] at this
      exact this hEq
    injection h with h
    rw [← h]
    show (g.assignDeltaK y).delta_k = 0
    simp [assignDeltaK, hnone]

/-- With fewer than three strikes, every `delta_k` is zero. -/
theorem get_strikes_short (h : g.get_strikes.length < 3) :
    ∀ s ∈ g.get_strikes, s.delta_k = 0 := by
  intro s hs
  have hlen : g.sortedStrikes.length < 3 := by
    rw [get_strikes_eq_map, List.length_map] at h
    exact h
  have hwin := windows3_eq_nil_of_short g.sortedStrikes hlen
  rw [get_strikes_eq_map] at hs
  obtain ⟨s', _, heq⟩ := List.mem_map.mp hs
  have hnone : lookupA g.deltaMap s'.price = none := by
    refine g.lookup_deltaMap_none ?_
    intro w hw
    rw [hwin] at hw
    exact absurd hw (by simp)
  rw [← heq]
  show (g.assignDeltaK s').delta_k = 0
  simp [assignDeltaK, hnone]

end OptionsByExpiryDate

/-! ## The descending sort in `variance` reverses an ascending list -/

theorem orderedInsert_append_last {α : Type} (r : α → α → Prop) [DecidableRel r] :
    ∀ (m : List α) (x : α), (∀ y ∈ m, ¬r x y) → List.orderedInsert r x m = m ++ [x] := by
  intro m x
  induction m with
  | nil => intro _; rfl
  | cons y m ih =>
    intro h
    rw [List.orderedInsert]
    rw [if_neg (h y (by simp))]
    rw [ih (fun z hz => h z (by simp [hz]))]
    rfl

/-- Sorting descending by price a list whose prices strictly increase
reverses it. -/
theorem insertionSort_desc_eq_reverse :
    ∀ l : List OptionStrike, l.Pairwise (fun a b => a.price < b.price) →
      List.insertionSort byPriceDesc l = l.reverse := by
  intro l
  induction l with
  | nil => intro _; rfl
  | cons x xs ih =>
    intro hp
    rw [List.pairwise_cons] at hp
    rw [List.insertionSort]
    rw [ih hp.2]
    rw [List.reverse_cons]
    refine orderedInsert_append_last byPriceDesc xs.reverse x ?_
    intro y hy
    have hmem : y ∈ xs := (List.reverse_perm xs).subset hy
    exact not_le.mpr (hp.1 y hmem)

namespace OptionsByExpiryDate

variable (g : OptionsByExpiryDate)

/-- `below_and_k` is the reverse of the ascending filtered list. -/
theorem belowAndK_eq_reverse (now : Time) :
    g.belowAndK now = (g.belowFilter now).reverse := by
  unfold belowAndK belowFilter
  have hpart : (g.get_strikes.partition
      (fun x => decide (x.price < g.forward_price now))).1
      = g.get_strikes.filter (fun x => decide (x.price < g.forward_price now)) := by
    rw [List.partition_eq_filter_filter]
  rw [hpart]
  exact insertionSort_desc_eq_reverse _
    (List.Pairwise.filter _ g.get_strikes_pairwise)

/-- The filtered list keeps strictly increasing prices. -/
theorem belowFilter_pairwise (now : Time) :
    (g.belowFilter now).Pairwise (fun a b => a.price < b.price) :=
  List.Pairwise.filter _ g.get_strikes_pairwise

/-- `k` is the last (highest) element of the ascending filtered list. -/
theorem kStrike_eq_getLast (now : Time) :
    g.kStrike now = (g.belowFilter now).getLast? := by
  unfold kStrike
  rw [belowAndK_eq_reverse, List.head?_reverse]

/-- `above` is the list of strikes at or above the forward price. -/
theorem aboveStrikes_eq_filter (now : Time) :
    g.aboveStrikes now
      = g.get_strikes.filter (fun x => decide (g.forward_price now ≤ x.price)) := by
  unfold aboveStrikes
  rw [List.partition_eq_filter_filter]
  refine List.filter_congr ?_
  intro x _
  show (!decide (x.price < g.forward_price now)) = decide (g.forward_price now ≤ x.price)
  simp only [← decide_not, not_lt]

/-- The tail of `below_and_k` is the reverse of the filtered list without its
last element. -/
theorem belowAndK_tail (now : Time) :
    (g.belowAndK now).tail = (g.belowFilter now).dropLast.reverse := by
  rw [belowAndK_eq_reverse, List.tail_reverse]

end OptionsByExpiryDate

namespace OptionsByExpiryDate

variable (g : OptionsByExpiryDate)

/-- When `k` exists it is the last element of the ascending filtered list, and
every earlier element has a smaller price. -/
theorem kStrike_some_decomp (now : Time) {k : OptionStrike}
    (hk : g.kStrike now = some k) :
    g.belowFilter now = (g.belowFilter now).dropLast ++ [k]
      ∧ ∀ y ∈ (g.belowFilter now).dropLast, y.price < k.price := by
  rw [kStrike_eq_getLast] at hk
  have hne : g.belowFilter now ≠ [] := by
    intro hnil
    rw [hnil] at hk
    exact absurd hk (by simp)
  have hlast : (g.belowFilter now).getLast hne = k := by
    have := List.getLast?_eq_getLast (g.belowFilter now) hne
    rw [hk] at this
    injection this with this
    exact this.symm
  have hsplit := List.dropLast_append_getLast hne
  rw [hlast] at hsplit
  refine ⟨hsplit.symm, ?_⟩
  have hp := g.belowFilter_pairwise now
  rw [← hsplit, List.pairwise_append] at hp
  intro y hy
  exact hp.2.2 y hy k (by simp)

/-- Properties of `k`: it is an output strike strictly below the forward
price, and maximal among those. -/
theorem kStrike_some_props (now : Time) {k : OptionStrike}
    (hk : g.kStrike now = some k) :
    k ∈ g.get_strikes ∧ k.price < g.forward_price now ∧
      ∀ s ∈ g.get_strikes, s.price < g.forward_price now → s.price ≤ k.price := by
  obtain ⟨hsplit, hlt⟩ := g.kStrike_some_decomp now hk
  have hkmem : k ∈ g.belowFilter now := by
    rw [hsplit]
    exact List.mem_append.mpr (Or.inr (by simp))
  have hkf := List.mem_filter.mp hkmem
  refine ⟨hkf.1, by simpa using hkf.2, ?_⟩
  intro s hs hslt
  have hsmem : s ∈ g.belowFilter now :=
    List.mem_filter.mpr ⟨hs, by simpa using hslt⟩
  rw [hsplit] at hsmem
  rcases List.mem_append.mp hsmem with hdrop | hlast
  · exact le_of_lt (hlt s hdrop)
  · rw [List.mem_singleton.mp hlast]

/-- When `k` does not exist, no strike lies below the forward price. -/
theorem kStrike_none_props (now : Time) (hk : g.kStrike now = none) :
    g.belowFilter now = [] ∧
      ∀ s ∈ g.get_strikes, ¬s.price < g.forward_price now := by
  rw [kStrike_eq_getLast] at hk
  have hnil : g.belowFilter now = [] := by
    cases hl : g.belowFilter now with
    | nil => rfl
    | cons a l =>
      rw [hl] at hk
      exact absurd hk (by simp [List.getLast?_eq_getLast])
  refine ⟨hnil, ?_⟩
  intro s hs hslt
  have : s ∈ g.belowFilter now := List.mem_filter.mpr ⟨hs, by simpa using hslt⟩
  rw [hnil] at this
  exact absurd this (by simp)

/-- The strikes strictly below `k` are exactly the filtered list without its
last element. -/
theorem belowFilter_dropLast_eq (now : Time) {k : OptionStrike}
    (hk : g.kStrike now = some k) :
    (g.belowFilter now).dropLast
      = g.get_strikes.filter (fun s => decide (s.price < k.price)) := by
  obtain ⟨hsplit, hlt⟩ := g.kStrike_some_decomp now hk
  have hkfp : k.price < g.forward_price now := (g.kStrike_some_props now hk).2.1
  -- filtering below k over all strikes equals filtering below k over belowFilter
  have hstep : g.get_strikes.filter (fun s => decide (s.price < k.price))
      = (g.belowFilter now).filter (fun s => decide (s.price < k.price)) := by
    unfold belowFilter
    rw [List.filter_filter]
    refine List.filter_congr ?_
    intro x _
    by_cases hx : x.price < k.price
    · simp [hx, lt_trans hx hkfp]
    · simp [hx]
  rw [hstep]
  -- now filter the decomposed list
  rw [hsplit, List.filter_append]
  have h1 : (g.belowFilter now).dropLast.filter (fun s => decide (s.price < k.price))
      = (g.belowFilter now).dropLast :=
    List.filter_eq_self.mpr (fun y hy => by simpa using hlt y hy)
  have h2 : List.filter (fun s => decide (s.price < k.price)) [k] = [] := by
    simp [lt_irrefl]
  rw [h1, h2, List.append_nil, List.dropLast_concat]

/-- The option legs selected by `variance` are a permutation of the legs the
claim describes. -/
theorem selectedOptions_perm (now : Time) :
    (g.selectedOptions now).Perm (selectedOptionsClaim g now) := by
  unfold selectedOptions selectedOptionsClaim
  cases hk : g.kStrike now with
  | some k =>
    have htail : (g.belowAndK now).tail
        = (g.get_strikes.filter (fun s => decide (s.price < k.price))).reverse := by
      rw [belowAndK_tail, belowFilter_dropLast_eq g now hk]
    rw [htail, aboveStrikes_eq_filter]
    simp only [Option.toList_some, List.flatMap_cons, List.flatMap_nil, List.append_nil]
    refine List.Perm.append (List.Perm.append ?_ (List.Perm.refl _)) (List.Perm.refl _)
    exact (List.reverse_perm _).map _
  | none =>
    have hnil := (g.kStrike_none_props now hk).1
    have htail : (g.belowAndK now).tail = [] := by
      rw [belowAndK_tail, hnil]
      rfl
    rw [htail, aboveStrikes_eq_filter]
    simp

/-- `contributions` can be summed over the claim's description of the
selected legs. -/
theorem contributions_eq_claim (now : Time) :
    g.contributions now
      = ((selectedOptionsClaim g now).map (contribution (g.riskFreeInterest now))).sum := by
  unfold contributions
  exact List.Perm.sum_eq (((g.selectedOptions_perm now)).map _)

end OptionsByExpiryDate

namespace OptionsByExpiryDate

variable (g : OptionsByExpiryDate)

/-- With no strikes, the forward price is 0. -/
theorem forward_price_empty (now : Time) (h : g.get_strikes = []) :
    g.forward_price now = 0 := by
  unfold forward_price
  rw [h]
  rfl

/-- With strikes present, the forward price is computed from a strike
minimizing `|call_put_difference|`. -/
theorem forward_price_nonempty (now : Time) (h : g.get_strikes ≠ []) :
    ∃ atm ∈ g.get_strikes,
      (∀ s ∈ g.get_strikes,
        atm.call_put_difference.natAbs ≤ s.call_put_difference.natAbs) ∧
      g.forward_price now = atm.price
        + f64_as_cents (Real.exp (g.risk_free_rate * g.time_to_expiration now)
            * (atm.call_put_difference : ℝ)) := by
  have hperm := List.perm_insertionSort byAbsCpd g.get_strikes
  cases hs : List.insertionSort byAbsCpd g.get_strikes with
  | nil =>
    rw [hs] at hperm
    exact absurd (List.Perm.nil_eq hperm).symm h
  | cons atm rest =>
    have hsorted := List.sorted_insertionSort byAbsCpd g.get_strikes
    rw [hs] at hsorted hperm
    refine ⟨atm, hperm.subset (by simp), ?_, ?_⟩
    · intro s hsmem
      rcases List.mem_cons.mp (hperm.symm.subset hsmem) with rfl | hrest
      · exact le_refl _
      · exact List.rel_of_sorted_cons hsorted s hrest
    · unfold forward_price
      rw [hs]
      rfl

end OptionsByExpiryDate

/-! ## Non-finiteness propagation in `EF` -/

namespace EF

variable {K : Type} [LinearOrderedField K]

omit [LinearOrderedField K] in
theorem nonFin_iff_not_isFinite (x : EF K) : NonFin x ↔ x.isFinite = false := by
  cases x <;> simp [NonFin, isFinite]

/-- Subtracting a value from itself yields exact zero or NaN. -/
theorem sub_self_zero_or_nan (x : EF K) : x.sub x = fin 0 ∨ x.sub x = nan := by
  cases x with
  | fin v => left; simp [sub, neg, add]
  | inf => right; rfl
  | neginf => right; rfl
  | nan => right; rfl

/-- Division by exact zero is never finite. -/
theorem nonFin_div_fin_zero (x : EF K) : NonFin (x.div (fin 0)) := by
  cases x with
  | fin v =>
    by_cases hv : v = 0
    · subst hv; right; right; simp [div]
    · rcases lt_trichotomy v 0 with hlt | heq | hgt
      · right; left; simp [div, hv, not_lt.mpr (le_of_lt hlt), hlt]
      · exact absurd heq hv
      · left; simp [div, hv, hgt]
  | inf => left; simp [div, lt_irrefl]
  | neginf => right; left; simp [div, lt_irrefl]
  | nan => right; right; rfl

/-- Division by NaN is NaN. -/
theorem div_nan (x : EF K) : x.div nan = nan := by
  cases x <;> rfl

/-- The sum of two non-finite values is non-finite. -/
theorem nonFin_add {a b : EF K} (ha : NonFin a) (hb : NonFin b) : NonFin (a.add b) := by
  rcases ha with rfl | rfl | rfl <;> rcases hb with rfl | rfl | rfl <;>
    simp [add, NonFin]

/-- Multiplying a non-finite value by a positive finite constant keeps it
non-finite. -/
theorem nonFin_mul_fin_pos {a : EF K} {c : K} (ha : NonFin a) (hc : 0 < c) :
    NonFin (a.mul (fin c)) := by
  rcases ha with rfl | rfl | rfl
  · left; simp [mul, hc]
  · right; left; simp [mul, hc]
  · right; right; rfl

/-- Dividing a non-finite value by a positive finite constant keeps it
non-finite. -/
theorem nonFin_div_fin_pos {a : EF K} {c : K} (ha : NonFin a) (hc : 0 < c) :
    NonFin (a.div (fin c)) := by
  rcases ha with rfl | rfl | rfl
  · left; simp [div, not_lt.mpr (le_of_lt hc)]
  · right; left; simp [div, not_lt.mpr (le_of_lt hc)]
  · right; right; rfl

/-- `powf(0.5)` of a non-finite value is non-finite. -/
theorem nonFin_powf05 {a : EF K} (sq : K → K) (ha : NonFin a) :
    NonFin (a.powf05 sq) := by
  rcases ha with rfl | rfl | rfl
  · left; rfl
  · left; rfl
  · right; right; rfl

end EF

/-- With equal near- and next-term minute counts, the `compute_vix`
arithmetic -- evaluated in IEEE semantics -- is never finite, whatever the
other inputs (even non-finite ones) and whatever finite square root is used. -/
theorem computeVixEF_degenerate {K : Type} [LinearOrderedField K] (sq : K → K)
    (t1 s1_sq t2 s2_sq : EF K) (nT : EF K) :
    (computeVixEF sq t1 s1_sq nT t2 s2_sq nT).isFinite = false := by
  rw [← EF.nonFin_iff_not_isFinite]
  unfold computeVixEF
  have hdenom := EF.sub_self_zero_or_nan nT
  have hterm : ∀ x : EF K, EF.NonFin (x.div (nT.sub nT)) := by
    intro x
    rcases hdenom with hz | hn
    · rw [hz]; exact EF.nonFin_div_fin_zero x
    · rw [hn, EF.div_nan]; right; right; rfl
  have hsum := EF.nonFin_add (hterm ((t1.mul s1_sq).mul (nT.sub (EF.fin 43200))))
    (hterm ((t2.mul s2_sq).mul ((EF.fin 43200).sub nT)))
  have h365 : (0 : K) < 525600 := by norm_num
  have h30 : (0 : K) < 43200 := by norm_num
  have h100 : (0 : K) < 100 := by norm_num
  exact EF.nonFin_mul_fin_pos
    (EF.nonFin_powf05 sq
      (EF.nonFin_div_fin_pos (EF.nonFin_mul_fin_pos hsum h365) h30)) h100

/-! ## Structure of `group_options_by_expiry` -/

theorem group_options_by_expiry_eq (options : List OptionContract) :
    group_options_by_expiry options
      = (groupRunsBy (fun o => o.expires_at) options).foldl
          (fun m r => insertA m r.1 (mkExpiryGroup r)) [] := rfl

/-- The map has an entry exactly for the expiry timestamps present in the
input. -/
theorem lookup_group_isSome (options : List OptionContract) (e : Time) :
    (lookupA (group_options_by_expiry options) e).isSome
      ↔ e ∈ options.map (fun o => o.expires_at) := by
  rw [group_options_by_expiry_eq]
  rw [lookupA_foldl_isSome (fun r => r.1) mkExpiryGroup _ e []]
  show (((groupRunsBy (fun o => o.expires_at) options).map (fun r => r.1)).contains e
      || false) = true ↔ _
  rw [Bool.or_false, List.contains_iff_exists_mem_beq]
  constructor
  · rintro ⟨k, hk, hbeq⟩
    obtain ⟨r, hr, hrk⟩ := List.mem_map.mp hk
    obtain ⟨x, hx, hxk⟩ := groupRunsBy_key_mem options r hr
    have hek : e = k := by simpa using hbeq
    exact List.mem_map.mpr ⟨x, hx, by rw [hxk, hrk, ← hek]⟩
  · rintro he
    obtain ⟨x, hx, hxk⟩ := List.mem_map.mp he
    obtain ⟨r, hr, _, hrk⟩ :=
      @groupRunsBy_mem_run OptionContract Time _ (fun o => o.expires_at) options x hx
    refine ⟨r.1, List.mem_map.mpr ⟨r, hr, rfl⟩, ?_⟩
    rw [hrk, hxk]
    simp

/-- For clustered input, the group found for `e` holds exactly the input
contracts with expiry `e`, partitioned by kind. -/
theorem lookup_group_clustered (options : List OptionContract)
    (hcl : expiryClustered options) (e : Time) (grp : OptionsByExpiryDate)
    (h : lookupA (group_options_by_expiry options) e = some grp) :
    grp.expires_at = e ∧
      grp.calls = (options.filter (fun o => decide (o.expires_at = e))).filter
        (fun o => decide (o.kind = OptionKind.Call)) ∧
      grp.puts = (options.filter (fun o => decide (o.expires_at = e))).filter
        (fun o => !decide (o.kind = OptionKind.Call)) := by
  rw [group_options_by_expiry_eq] at h
  rcases lookupA_foldl_mem (fun r => r.1) mkExpiryGroup _ e grp [] h with
    ⟨r, hr, hrk, hrv⟩ | hbase
  · have hrun : r.2 = options.filter (fun o => decide (o.expires_at = e)) := by
      have := @groupRunsBy_run_eq_filter OptionContract Time _ (fun o => o.expires_at)
        options hcl r.1 r.2 (by rwa [Prod.mk.eta])
      rwa [hrk] at this
    subst hrv
    refine ⟨hrk, ?_, ?_⟩
    · show (r.2.partition (fun o => decide (o.kind = OptionKind.Call))).1 = _
      rw [List.partition_eq_filter_filter, hrun]
    · show (r.2.partition (fun o => decide (o.kind = OptionKind.Call))).2 = _
      rw [List.partition_eq_filter_filter, hrun]
      rfl
  · exact absurd hbase (by simp [lookupA])

/-! ## The index formula, written with a real square root -/

theorem compute_vix_eq_sqrt (g1 g2 : OptionsByExpiryDate) (now : Time) :
    compute_vix g1 g2 now
      = Real.sqrt
          ((g1.time_to_expiration now * g1.variance now
              * (g2.minutes_to_expiration now - 43200)
              / (g2.minutes_to_expiration now - g1.minutes_to_expiration now)
            + g2.time_to_expiration now * g2.variance now
              * (43200 - g1.minutes_to_expiration now)
              / (g2.minutes_to_expiration now - g1.minutes_to_expiration now))
            * 525600 / 43200) * 100 := by
  unfold compute_vix
  rw [Real.sqrt_eq_rpow]
  norm_num

/-! ## Truncating versus flooring division -/

theorem rustDiv_eq_fdiv_of_nonneg {a : Int} (h : 0 ≤ a) :
    rustDiv a 2 = Int.fdiv a 2 := by
  unfold rustDiv
  rw [Int.tdiv_eq_ediv h (by norm_num), Int.fdiv_eq_ediv a (by norm_num)]

/-! ## Concrete evaluations on the three-strike sample -/

theorem gThree_strikes : gThree.get_strikes = [w1, w2, w3] := by decide

theorem gThree_fp : gThree.forward_price 0 = 11000 := by
  have hsort : List.insertionSort byAbsCpd gThree.get_strikes = [w2, w3, w1] := by decide
  unfold OptionsByExpiryDate.forward_price
  rw [hsort]
  show w2.price + OptionsByExpiryDate.f64_as_cents
      (Real.exp (gThree.risk_free_rate * gThree.time_to_expiration 0)
        * (w2.call_put_difference : ℝ)) = 11000
  have hcpd : w2.call_put_difference = 0 := by decide
  have hrate : gThree.risk_free_rate = 0 := rfl
  rw [hcpd, hrate]
  norm_num [OptionsByExpiryDate.f64_as_cents, Real.exp_zero]
  rfl

theorem gThree_kStrike : gThree.kStrike 0 = some w1 := by
  unfold OptionsByExpiryDate.kStrike OptionsByExpiryDate.belowAndK
  rw [gThree_fp]
  have hpart : (gThree.get_strikes.partition
      (fun x => decide (x.price < (11000 : Cents)))).1 = [w1] := by decide
  rw [hpart]
  rfl

/-! # Claim theorems -/

/-- C1 (counterexample): the claim states that `a` is guarded to `0` when
`k_0 = 0`; the code has no such guard (line `let a = fp as f64 / k_0 as f64 -
1.0;`).  At an input with no strikes, `k_0 = 0` and the guarded formula the
claim describes yields `0`, while the code's formula does not: in the exact
real embedding (total division, `x / 0 = 0`) the code yields `-1`, and in
IEEE-754 arithmetic the same division yields a non-finite value — on neither
semantics is the claimed `0` produced. -/
theorem claim1_counterexample :
    OptionsByExpiryDate.variance gEmpty 0 ≠ varianceClaimGuarded gEmpty 0 := by
  have hc : gEmpty.contributions 0 = 0 := rfl
  have hk : gEmpty.k_0 0 = 0 := rfl
  have hfp : gEmpty.forward_price 0 = 0 := rfl
  have ht : gEmpty.time_to_expiration 0 = 1 := by
    unfold OptionsByExpiryDate.time_to_expiration OptionsByExpiryDate.minutes_to_expiration
    rw [show gEmpty.expires_at = 525600 from rfl]
    norm_num
  have ha : gEmpty.aTerm 0 = -1 := by
    unfold OptionsByExpiryDate.aTerm
    rw [hfp, hk]
    norm_num
  unfold OptionsByExpiryDate.variance varianceClaimGuarded
  rw [hc, ha, ht, hk]
  norm_num

/-- C1 (amended): in `variance(now)`, after summing contributions, the term
`a` is computed as `fp / k0 - 1` with no guard for `k0 = 0` (when `k0 = 0`
the division by zero propagates: in IEEE semantics its result is non-finite,
as the third conjunct records for the `EF` model); the returned variance
equals `(2 * Σ contributions - a²) / t`. -/
theorem claim1_amended : ∀ (g : OptionsByExpiryDate) (now : Time),
    g.variance now
      = (2 * g.contributions now - g.aTerm now * g.aTerm now) / g.time_to_expiration now
    ∧ g.aTerm now = (g.forward_price now : ℝ) / (g.k_0 now : ℝ) - 1
    ∧ ∀ fp : ℚ, (EF.div (EF.fin fp) (EF.fin 0)).isFinite = false := by
  intro g now
  refine ⟨rfl, rfl, ?_⟩
  intro fp
  rw [← EF.nonFin_iff_not_isFinite]
  exact EF.nonFin_div_fin_zero _

/-- C2 (counterexample): `group_options_by_expiry` groups only consecutive
runs of equal expiries and later runs overwrite earlier ones in the map, so
for the input `[ceSplitA, ceSplitB, ceSplitC]` (expiries 0, 1, 0) the group
for expiry 0 contains only `ceSplitC`: the input contract `ceSplitA`, which
has `expires_at = 0`, is missing from its group's calls and puts — refuting
the claim that each group contains exactly the input contracts with its
expiry. -/
theorem claim2_counterexample :
    ((lookupA (group_options_by_expiry [ceSplitA, ceSplitB, ceSplitC]) 0).map
        (fun grp => grp.calls ++ grp.puts)) = some [ceSplitC]
      ∧ ceSplitA.expires_at = 0
      ∧ ceSplitA ∈ [ceSplitA, ceSplitB, ceSplitC]
      ∧ ceSplitA ∉ [ceSplitC] := by
  exact ⟨by decide, rfl, by decide, by decide⟩

/-- C2 (amended): `groupByExpiry` has exactly one entry per distinct
`expiresAt` value present in the input; and *when every expiry's contracts
are contiguous in the input* (`expiryClustered`), each group contains exactly
the input contracts with its expiry, split purely by kind (Calls in `calls`,
Puts in `puts`).  (For non-contiguous input, each group holds only the last
contiguous run of its expiry, as the counterexample shows.) -/
theorem claim2_amended : ∀ (options : List OptionContract) (e : Time),
    ((lookupA (group_options_by_expiry options) e).isSome
      ↔ e ∈ options.map (fun o => o.expires_at))
    ∧ (expiryClustered options →
        ∀ grp, lookupA (group_options_by_expiry options) e = some grp →
          grp.expires_at = e
          ∧ grp.calls = (options.filter (fun o => decide (o.expires_at = e))).filter
              (fun o => decide (o.kind = OptionKind.Call))
          ∧ grp.puts = (options.filter (fun o => decide (o.expires_at = e))).filter
              (fun o => decide (o.kind = OptionKind.Put))
          ∧ (grp.calls ++ grp.puts).Perm
              (options.filter (fun o => decide (o.expires_at = e)))) := by
  intro options e
  refine ⟨lookup_group_isSome options e, ?_⟩
  intro hcl grp hlook
  obtain ⟨he, hcalls, hputs⟩ := lookup_group_clustered options hcl e grp hlook
  have hputs' : grp.puts = (options.filter (fun o => decide (o.expires_at = e))).filter
      (fun o => decide (o.kind = OptionKind.Put)) := by
    rw [hputs]
    refine List.filter_congr ?_
    intro o _
    cases o.kind <;> simp
  refine ⟨he, hcalls, hputs', ?_⟩
  rw [hcalls, hputs]
  exact List.filter_append_perm _ _

/-- C2 (witness): the amended theorem applied to the contiguous two-expiry
input `[ceSplitA, ceSplitB]` at expiry 0. -/
theorem claim2_witness :
    ceGroup.expires_at = 0
    ∧ ceGroup.calls = ([ceSplitA, ceSplitB].filter
        (fun o => decide (o.expires_at = 0))).filter
        (fun o => decide (o.kind = OptionKind.Call))
    ∧ ceGroup.puts = ([ceSplitA, ceSplitB].filter
        (fun o => decide (o.expires_at = 0))).filter
        (fun o => decide (o.kind = OptionKind.Put))
    ∧ (ceGroup.calls ++ ceGroup.puts).Perm
        ([ceSplitA, ceSplitB].filter (fun o => decide (o.expires_at = 0))) :=
  (claim2_amended [ceSplitA, ceSplitB] 0).2
    (by unfold expiryClustered; decide) ceGroup (by rfl)

/-- C3: `computeIndex(nearTerm, nextTerm, now)` equals
`sqrt(((t1·σ1²·(nT2−n30)/(nT2−nT1) + t2·σ2²·(n30−nT1)/(nT2−nT1)) · n365/n30))
· 100` with `n30 = 43200` and `n365 = 525600` (first conjunct, over the exact
real embedding); and when `nT1 = nT2`, the same arithmetic evaluated with
IEEE-754 special values is non-finite (infinite or NaN) rather than a raised
error — the second conjunct shows this in the `EF` model for all inputs and
any square-root map, so in particular for the pipeline's values. -/
theorem claim3_index_formula :
    (∀ (g1 g2 : OptionsByExpiryDate) (now : Time),
      compute_vix g1 g2 now
        = Real.sqrt
            ((g1.time_to_expiration now * g1.variance now
                * (g2.minutes_to_expiration now - 43200)
                / (g2.minutes_to_expiration now - g1.minutes_to_expiration now)
              + g2.time_to_expiration now * g2.variance now
                * (43200 - g1.minutes_to_expiration now)
                / (g2.minutes_to_expiration now - g1.minutes_to_expiration now))
              * 525600 / 43200) * 100)
    ∧ ∀ (K : Type) (inst : LinearOrderedField K) (sq : K → K)
        (t1 s1_sq t2 s2_sq nT : EF K),
        (@computeVixEF K inst sq t1 s1_sq nT t2 s2_sq nT).isFinite = false :=
  ⟨compute_vix_eq_sqrt,
    fun K inst sq t1 s1_sq t2 s2_sq nT =>
      @computeVixEF_degenerate K inst sq t1 s1_sq t2 s2_sq nT⟩

/-- C4: in `variance(now)` the summed contributions range over the put leg of
every strike strictly below `K₀`, the call leg of every strike at or above
the forward price, and both legs of the `K₀` strike itself
(`selectedOptionsClaim`, written from the claim; the first two conjuncts pin
down `kStrike` as the maximal strike strictly below the forward price, or
absent); each contribution is `(ΔK / K²) · mark · riskFreeInterest` with all
prices first divided by 100 into major units (third conjunct, definitional);
and `variance` is `(2 · Σ − a²) / t` over that sum. -/
theorem claim4_variance_selection : ∀ (g : OptionsByExpiryDate) (now : Time),
    (∀ k, g.kStrike now = some k →
        k ∈ g.get_strikes ∧ k.price < g.forward_price now ∧
          ∀ s ∈ g.get_strikes, s.price < g.forward_price now → s.price ≤ k.price)
    ∧ (g.kStrike now = none → ∀ s ∈ g.get_strikes, ¬s.price < g.forward_price now)
    ∧ OptionsByExpiryDate.contribution (g.riskFreeInterest now)
        = (fun p : OptionContract × Cents =>
            ((p.2 : ℝ) / 100) / (((p.1.strike : ℝ) / 100) * ((p.1.strike : ℝ) / 100))
              * ((p.1.mark : ℝ) / 100) * g.riskFreeInterest now)
    ∧ g.contributions now
        = ((selectedOptionsClaim g now).map
            (OptionsByExpiryDate.contribution (g.riskFreeInterest now))).sum
    ∧ g.variance now
        = (2 * g.contributions now - g.aTerm now * g.aTerm now)
            / g.time_to_expiration now := by
  intro g now
  exact ⟨fun k hk => g.kStrike_some_props now hk,
    fun hk => (g.kStrike_none_props now hk).2,
    rfl,
    g.contributions_eq_claim now,
    rfl⟩

/-- C4 (witness): the theorem applied to the three-strike sample at `now = 0`,
where `K₀` is the 10000 strike. -/
theorem claim4_witness :
    w1 ∈ gThree.get_strikes ∧ w1.price < gThree.forward_price 0 ∧
      ∀ s ∈ gThree.get_strikes, s.price < gThree.forward_price 0 →
        s.price ≤ w1.price :=
  (claim4_variance_selection gThree 0).1 w1 gThree_kStrike

/-- C5: `forwardPrice(now)` returns 0 when the strike list is empty;
otherwise it returns `atm.price + trunc(interest · atm.callPutDifference)`
where `atm` minimizes `|callPutDifference|`,
`interest = exp(riskFreeRate · timeToExpiration(now))`, and `f64_as_cents`
truncates toward zero (floor for nonnegative arguments, ceiling for negative
ones — last two conjuncts). -/
theorem claim5_forward_price : ∀ (g : OptionsByExpiryDate) (now : Time),
    (g.get_strikes = [] → g.forward_price now = 0)
    ∧ (g.get_strikes ≠ [] → ∃ atm ∈ g.get_strikes,
        (∀ s ∈ g.get_strikes,
          |atm.call_put_difference| ≤ |s.call_put_difference|)
        ∧ g.forward_price now = atm.price
            + OptionsByExpiryDate.f64_as_cents
                (Real.exp (g.risk_free_rate * g.time_to_expiration now)
                  * (atm.call_put_difference : ℝ)))
    ∧ (∀ x : ℝ, 0 ≤ x → OptionsByExpiryDate.f64_as_cents x = ⌊x⌋)
    ∧ (∀ x : ℝ, x < 0 → OptionsByExpiryDate.f64_as_cents x = ⌈x⌉) := by
  intro g now
  refine ⟨g.forward_price_empty now, ?_, ?_, ?_⟩
  · intro h
    obtain ⟨atm, hmem, hmin, heq⟩ := g.forward_price_nonempty now h
    refine ⟨atm, hmem, ?_, heq⟩
    intro s hs
    rw [Int.abs_eq_natAbs, Int.abs_eq_natAbs]
    exact_mod_cast hmin s hs
  · intro x hx
    unfold OptionsByExpiryDate.f64_as_cents
    rw [if_pos hx]
  · intro x hx
    unfold OptionsByExpiryDate.f64_as_cents
    rw [if_neg (not_le.mpr hx)]

/-- C5 (witness): the empty group yields forward price 0, and the one-strike
sample yields the at-the-money decomposition. -/
theorem claim5_witness :
    gEmpty.forward_price 0 = 0
    ∧ ∃ atm ∈ gOne.get_strikes,
        (∀ s ∈ gOne.get_strikes,
          |atm.call_put_difference| ≤ |s.call_put_difference|)
        ∧ gOne.forward_price 0 = atm.price
            + OptionsByExpiryDate.f64_as_cents
                (Real.exp (gOne.risk_free_rate * gOne.time_to_expiration 0)
                  * (atm.call_put_difference : ℝ)) :=
  ⟨(claim5_forward_price gEmpty 0).1 rfl,
    (claim5_forward_price gOne 0).2.1 (by decide)⟩

/-- C6: in the output of `getStrikes`, any three consecutive strikes
`(prev, curr, next)` give `curr.delta_k = (next.price - prev.price) / 2`
(truncating integer division); the first and last strikes have
`delta_k = 0`; and with fewer than three strikes every `delta_k` is 0. -/
theorem claim6_delta_k : ∀ g : OptionsByExpiryDate,
    (∀ (pre post : List OptionStrike) (prev curr next : OptionStrike),
        g.get_strikes = pre ++ prev :: curr :: next :: post →
          curr.delta_k = rustDiv (next.price - prev.price) 2)
    ∧ (∀ s, g.get_strikes.head? = some s → s.delta_k = 0)
    ∧ (∀ s, g.get_strikes.getLast? = some s → s.delta_k = 0)
    ∧ (g.get_strikes.length < 3 → ∀ s ∈ g.get_strikes, s.delta_k = 0) := by
  intro g
  exact ⟨fun pre post prev curr next h => g.get_strikes_middle_delta pre post _ _ _ h,
    fun s h => g.get_strikes_head_delta h,
    fun s h => g.get_strikes_last_delta h,
    g.get_strikes_short⟩

/-- C6 (witness): the theorem applied to the three-strike sample (middle
strike gets `(13000 - 10000) / 2 = 1500`, ends get 0) and to the one-strike
sample (fewer than three strikes: all zero). -/
theorem claim6_witness :
    w2.delta_k = rustDiv (w3.price - w1.price) 2
    ∧ w1.delta_k = 0
    ∧ w3.delta_k = 0
    ∧ ∀ s ∈ gOne.get_strikes, s.delta_k = 0 :=
  ⟨(claim6_delta_k gThree).1 [] [] w1 w2 w3 (by rw [gThree_strikes]; rfl),
    (claim6_delta_k gThree).2.1 w1 (by rw [gThree_strikes]; rfl),
    (claim6_delta_k gThree).2.2.1 w3 (by rw [gThree_strikes]; rfl),
    (claim6_delta_k gOne).2.2.2 (by decide)⟩

/-- C7: for every pair of call and put contract lists, the sequence returned
by `getStrikes` has strictly increasing price values (hence every price is
unique). -/
theorem claim7_strict_prices : ∀ g : OptionsByExpiryDate,
    g.get_strikes.Pairwise (fun a b => a.price < b.price) :=
  fun g => g.get_strikes_pairwise

/-- C8: a strike price appears in the output of `getStrikes` iff, among the
input contracts that survive the zero-bid liquidity filter, there exist both
a Call and a Put at that price; a strike with only one of the two kinds is
silently dropped. -/
theorem claim8_pairing : ∀ (g : OptionsByExpiryDate) (p : Cents),
    (∃ s ∈ g.get_strikes, s.price = p) ↔
      ((∃ c ∈ g.liquidOptions, c.kind = OptionKind.Call ∧ c.strike = p) ∧
        (∃ q ∈ g.liquidOptions, q.kind = OptionKind.Put ∧ q.strike = p)) :=
  fun g p => g.price_mem_get_strikes_iff p

/-- C8 (witness): the equivalence instantiated at the three-strike sample and
price 11000, applied in the forward direction to its middle strike. -/
theorem claim8_witness :
    (∃ c ∈ gThree.liquidOptions, c.kind = OptionKind.Call ∧ c.strike = 11000) ∧
      (∃ q ∈ gThree.liquidOptions, q.kind = OptionKind.Put ∧ q.strike = 11000) :=
  (claim8_pairing gThree 11000).mp ⟨w2, by rw [gThree_strikes]; decide, by decide⟩

/-- C9 (counterexample): for `cNegOdd` (bid −3, ask 0, sum odd and negative),
the code's mark is `(−3)/2 = −1` (truncation toward zero) while the claimed
floor is `−2`, so "truncating down (floor)" is false without a sign
restriction. -/
theorem claim9_counterexample :
    OptionContract.mark cNegOdd ≠ markClaimFloor cNegOdd
      ∧ OptionContract.mark cNegOdd = -1 ∧ markClaimFloor cNegOdd = -2 := by
  exact ⟨by decide, by decide, by decide⟩

/-- C9 (amended): for any contract, `mark = (bid + ask) / 2` with integer
division truncating toward zero; when `bid + ask` is nonnegative this
coincides with truncation down (floor). -/
theorem claim9_amended : ∀ c : OptionContract,
    c.mark = rustDiv (c.bid + c.ask) 2
    ∧ (0 ≤ c.bid + c.ask → c.mark = Int.fdiv (c.bid + c.ask) 2) := by
  intro c
  constructor
  · show rustDiv (c.ask + c.bid) 2 = rustDiv (c.bid + c.ask) 2
    rw [Int.add_comm]
  · intro h
    show rustDiv (c.ask + c.bid) 2 = Int.fdiv (c.bid + c.ask) 2
    rw [Int.add_comm c.ask c.bid]
    exact rustDiv_eq_fdiv_of_nonneg h

/-- C9 (witness): the amended theorem applied to a contract with bid 1 and
ask 2: odd nonnegative sum, mark `3 / 2 = 1 = ⌊3/2⌋`. -/
theorem claim9_witness :
    (mkC 0 0 OptionKind.Call 1 2).mark
      = Int.fdiv ((mkC 0 0 OptionKind.Call 1 2).bid + (mkC 0 0 OptionKind.Call 1 2).ask) 2 :=
  (claim9_amended (mkC 0 0 OptionKind.Call 1 2)).2 (by decide)

/-- C10: every `OptionStrike` in the output of `getStrikes` is well-formed:
its call leg has kind Call, its put leg has kind Put, both legs' strikes
equal the `OptionStrike`'s price, and both legs have nonzero bids. -/
theorem claim10_wellformed : ∀ g : OptionsByExpiryDate, ∀ s ∈ g.get_strikes,
    s.call.kind = OptionKind.Call ∧ s.put.kind = OptionKind.Put ∧
      s.call.strike = s.price ∧ s.put.strike = s.price ∧
      s.call.bid ≠ 0 ∧ s.put.bid ≠ 0 :=
  fun g => g.get_strikes_wellformed

/-- C10 (witness): the theorem applied to the middle strike of the
three-strike sample. -/
theorem claim10_witness :
    w2.call.kind = OptionKind.Call ∧ w2.put.kind = OptionKind.Put ∧
      w2.call.strike = w2.price ∧ w2.put.strike = w2.price ∧
      w2.call.bid ≠ 0 ∧ w2.put.bid ≠ 0 :=
  claim10_wellformed gThree w2 (by rw [gThree_strikes]; decide)

/-- C1 (witness): the amended theorem instantiated at the empty group. -/
theorem claim1_witness :
    OptionsByExpiryDate.variance gEmpty 0
        = (2 * gEmpty.contributions 0 - gEmpty.aTerm 0 * gEmpty.aTerm 0)
            / gEmpty.time_to_expiration 0
      ∧ gEmpty.aTerm 0 = (gEmpty.forward_price 0 : ℝ) / (gEmpty.k_0 0 : ℝ) - 1
      ∧ ∀ fp : ℚ, (EF.div (EF.fin fp) (EF.fin 0)).isFinite = false :=
  claim1_amended gEmpty 0

/-- C3 (witness): the degenerate conjunct instantiated over `ℚ` with equal
minute counts and the identity square-root map. -/
theorem claim3_witness :
    (computeVixEF (fun q : ℚ => q) (EF.fin 1) (EF.fin 1) (EF.fin 300)
        (EF.fin 1) (EF.fin 1) (EF.fin 300)).isFinite = false :=
  claim3_index_formula.2 ℚ inferInstance (fun q : ℚ => q)
    (EF.fin 1) (EF.fin 1) (EF.fin 1) (EF.fin 1) (EF.fin 300)
